import Mathlib

/-!
Shallow embedding of the dreamerv2 fork's environment adapters
(`common/envs.py`) and of the set-transformer module
(`common/models/set_transformer.py`), together with proofs about the
properties the project's specification ascribes to them.

Python dictionaries are modelled as insertion-ordered association lists,
numpy float arrays as lists of rationals, numpy integer arrays as lists of
integers.  External simulators (dm_control, the Atari emulator, the
StarCraft II engine) and external enumerations from pysc2 are abstracted
as parameters; everything the repository itself computes is translated.
-/

namespace DreamerV2

/- ## Python dictionary primitives

A Python `dict` preserves insertion order; assigning to an existing key
overwrites the value in place, assigning a fresh key appends. -/

def alookup {κ β : Type} [BEq κ] (d : List (κ × β)) (k : κ) : Option β :=
  (d.find? (fun p => p.1 == k)).map Prod.snd

def pyInsert {κ β : Type} [BEq κ] (d : List (κ × β)) (k : κ) (v : β) : List (κ × β) :=
  if d.any (fun p => p.1 == k) then
    d.map (fun p => if p.1 == k then (p.1, v) else p)
  else d ++ [(k, v)]

def dictOfPairs {κ β : Type} [BEq κ] (ps : List (κ × β)) : List (κ × β) :=
  ps.foldl (fun d p => pyInsert d p.1 p.2) []

/- ## Sc2: action-space enumeration (`Sc2._get_action_lookup`)

`actions._FUNCTIONS` is an external pysc2 enumeration; each entry carries a
function id and a `general_id`.  The argument lists of the functions are
modelled separately (`funcArgs`), mirroring `action_spec.functions[id].args`. -/

structure SCFunction where
  fid : Nat
  generalId : Nat
deriving DecidableEq, Repr

/-- `Sc2.blocked_actions` as set in `Sc2.__init__`. -/
def blockedActions : List Nat := [4]

/-- The loop body of `Sc2._get_action_lookup`: walk `_FUNCTIONS`, and for each
function with `general_id == 0` whose id is not blocked, bind its id to the
next index in the growing dictionary. -/
def getActionLookupAux (blocked : List Nat) :
    List SCFunction → List (Nat × Nat) → Nat → List (Nat × Nat)
  | [], d, _ => d
  | f :: rest, d, index =>
    if f.generalId == 0 && !(blocked.contains f.fid) then
      getActionLookupAux blocked rest (pyInsert d f.fid index) (index + 1)
    else
      getActionLookupAux blocked rest d index

/-- `Sc2._get_action_lookup` (the `action_embed_lookup` dictionary). -/
def getActionLookup (fns : List SCFunction) (blocked : List Nat) : List (Nat × Nat) :=
  getActionLookupAux blocked fns [] 0

/-- `Sc2.action_id_lookup`: `dict(reversed(item) for item in lookup.items())`. -/
def actionIdLookup (fns : List SCFunction) (blocked : List Nat) : List (Nat × Nat) :=
  dictOfPairs ((getActionLookup fns blocked).map (fun p => (p.2, p.1)))

/-- Size of the `Discrete` space the `action_space` property exposes under the
key `action_id`: `gym.spaces.Discrete(len(self.action_embed_lookup))`. -/
def actionIdSpaceSize (fns : List SCFunction) (blocked : List Nat) : Nat :=
  (getActionLookup fns blocked).length

/-- The functions of `_FUNCTIONS` that survive the filter in
`_get_action_lookup` (general id zero and not blocked), in enumeration
order. -/
def selectedFunctions (fns : List SCFunction) (blocked : List Nat) : List SCFunction :=
  fns.filter (fun f => f.generalId == 0 && !(blocked.contains f.fid))

/-- The mapping the claim describes: the selected function ids bound to
consecutive indices starting at `start`, in enumeration order. -/
def lookupSpec : List SCFunction → Nat → List (Nat × Nat)
  | [], _ => []
  | f :: rest, start => (f.fid, start) :: lookupSpec rest (start + 1)

/- ## Sc2: argument keys (`Sc2._get_arg_keys`, `Sc2.action_arg_lookup`, `Sc2.step`)

`args_size_lookup` (from `pysc2.lib.actions.get_arg_size_lookup`) maps an
argument id to the list of sizes of its dimensions; it is abstracted as a
function `argSize`.  `funcArgs` maps a pysc2 function id to the ids of the
arguments that function requires (`action_spec.functions[fid].args`). -/

/-- `Sc2._get_arg_keys`: one key `arg_{arg_id}_{i}` per dimension of the
argument. -/
def getArgKeys (argSize : Nat → List Nat) (argId : Nat) : List String :=
  (List.range (argSize argId).length).map
    (fun i => "arg_" ++ toString argId ++ "_" ++ toString i)

/-- `Sc2.action_arg_lookup`: for every embedded action index, the
concatenation of the argument keys of the corresponding function's required
arguments. -/
def actionArgLookup (fns : List SCFunction) (blocked : List Nat)
    (funcArgs : Nat → List Nat) (argSize : Nat → List Nat) : List (Nat × List String) :=
  (actionIdLookup fns blocked).map
    (fun p => (p.1, ((funcArgs p.2).map (getArgKeys argSize)).flatten))

/-- The argument-rebuilding part of `Sc2.step`: map the embedded index back to
a pysc2 function id, then read `action[k]` for the argument keys of each
required argument, grouped per argument, and form the `FunctionCall`
(modelled as the pair of the function id and the grouped argument values).
The action dictionary is modelled as a total valuation of its keys. -/
def sc2StepFunctionCall (fns : List SCFunction) (blocked : List Nat)
    (funcArgs : Nat → List Nat) (argSize : Nat → List Nat)
    (action : String → Int) (embedId : Nat) : Option (Nat × List (List Int)) :=
  match alookup (actionIdLookup fns blocked) embedId with
  | none => none
  | some fid =>
      some (fid, (funcArgs fid).map (fun r => (getArgKeys argSize r).map action))

/- ## Sc2: unit rows of `collect_sc_observation`

`units` is `timestep.observation.feature_units`, one integer row per visible
unit, the unit type id in column 0.  `unit_embed_lookup` (from pysc2's
`get_unit_embed_lookup`) and the list of selected `FeatureUnit` column
indices are abstracted as parameters.  The source computes
`unit_dim = self.unit_max - np.size(units_out, 0)` and calls
`np.zeros((unit_dim, feature_dim))`; numpy raises `ValueError` on a negative
dimension, which the model renders as `none`. -/

def collectUnits (lookup : Int → Nat) (cols : List Nat) (unitMax : Nat)
    (units : List (List Int)) : Option (List (List Int) × Nat) :=
  let unitsOut : List (List Int) :=
    units.map (fun u => ((lookup (u.getD 0 0) : Int) :: cols.map (fun c => u.getD c 0)))
  let featureDim : Nat := 1 + cols.length
  if units.length ≤ unitMax then
    some (unitsOut ++ List.replicate (unitMax - units.length) (List.replicate featureDim 0),
          unitsOut.length)
  else
    none

/- ## OneHotAction.step (`envs.py` lines 487-498)

numpy primitives used there: `np.argmax` (first index of the maximum) and
`np.allclose` (elementwise `|a - b| <= atol + rtol * |b|` with
`rtol = 1e-5`, `atol = 1e-8`). -/

def npArgmaxAux : List ℚ → Nat → Nat → ℚ → Nat
  | [], _, best, _ => best
  | x :: xs, i, best, bestVal =>
    if bestVal < x then npArgmaxAux xs (i + 1) i x
    else npArgmaxAux xs (i + 1) best bestVal

/-- `np.argmax` over a 1-D float array: the first index attaining the maximum.
numpy raises on an empty array; the callers below only use it on non-empty
action vectors, on the empty list the model returns 0. -/
def npArgmax : List ℚ → Nat
  | [] => 0
  | x :: xs => npArgmaxAux xs 1 0 x

/-- `np.allclose(a, b)` on same-length 1-D arrays (default tolerances). -/
def npAllclose (a b : List ℚ) : Bool :=
  (List.zip a b).all (fun p => |p.1 - p.2| ≤ 1 / 100000000 + (1 / 100000) * |p.2|)

/-- The per-key body of `OneHotAction.step`: take the argmax, build the
reference one-hot at that position, and forward the argmax index when the
reference is `np.allclose` to the action vector, the sentinel `-1`
otherwise. -/
def oneHotStepIndex (a : List ℚ) : Int :=
  let index := npArgmax a
  let reference := (List.replicate a.length (0 : ℚ)).set index 1
  if npAllclose reference a then (index : Int) else -1

/-- The `reference` vector built inside `OneHotAction.step`: zeros with a 1
written at the argmax position. -/
def oneHotRef (a : List ℚ) : List ℚ :=
  (List.replicate a.length (0 : ℚ)).set (npArgmax a) 1

/-- The claim's notion of a one-hot vector: all zeros except a single entry
equal to 1. -/
def isOneHot (a : List ℚ) : Bool :=
  a.count 1 == 1 && a.all (fun x => x == 0 || x == 1)

/- ## NormalizeAction (`envs.py` lines 439-462)

The wrapped space's `low`/`high` bounds are extended reals (numpy floats
including infinities); they are modelled by `XQ`.  All quantities the
wrapper itself computes (`_low`, `_high`, the stepped action, the advertised
bounds) are finite. -/

inductive XQ where
  | negInf : XQ
  | posInf : XQ
  | val : ℚ → XQ
deriving DecidableEq, Repr

/-- `np.isfinite` on one bound. -/
def XQ.isFinite : XQ → Bool
  | XQ.val _ => true
  | _ => false

/-- The rational carried by a finite bound (only read on finite bounds). -/
def XQ.toQ : XQ → ℚ
  | XQ.val q => q
  | _ => 0

/-- Elementwise `np.where` on same-length arrays. -/
def npWhere : List Bool → List ℚ → List ℚ → List ℚ
  | m :: ms, x :: xs, y :: ys => (if m then x else y) :: npWhere ms xs ys
  | _, _, _ => []

/-- `self._mask = np.isfinite(space.low) & np.isfinite(space.high)`. -/
def naMask : List XQ → List XQ → List Bool
  | l :: ls, h :: hs => (l.isFinite && h.isFinite) :: naMask ls hs
  | _, _ => []

/-- `self._low = np.where(self._mask, space.low, -1)`. -/
def naLow : List XQ → List XQ → List ℚ
  | l :: ls, h :: hs => (if l.isFinite && h.isFinite then l.toQ else -1) :: naLow ls hs
  | _, _ => []

/-- `self._high = np.where(self._mask, space.high, 1)`. -/
def naHigh : List XQ → List XQ → List ℚ
  | l :: ls, h :: hs => (if l.isFinite && h.isFinite then h.toQ else 1) :: naHigh ls hs
  | _, _ => []

/-- `orig = (action + 1) / 2 * (self._high - self._low) + self._low`,
elementwise. -/
def naOrig : List ℚ → List ℚ → List ℚ → List ℚ
  | x :: xs, l :: ls, h :: hs => ((x + 1) / 2 * (h - l) + l) :: naOrig xs ls hs
  | _, _, _ => []

/-- `NormalizeAction.step`'s transformation of the action vector:
`orig = ...; orig = np.where(self._mask, orig, action)`. -/
def naStep (low high : List XQ) (a : List ℚ) : List ℚ :=
  npWhere (naMask low high) (naOrig a (naLow low high) (naHigh low high)) a

/-- The `low` bound of the advertised `action_space`:
`np.where(self._mask, -np.ones_like(self._low), self._low)`. -/
def naSpaceLow (low high : List XQ) : List ℚ :=
  npWhere (naMask low high) (List.replicate (naLow low high).length (-1)) (naLow low high)

/-- The `high` bound of the advertised `action_space`:
`np.where(self._mask, np.ones_like(self._low), self._high)`. -/
def naSpaceHigh (low high : List XQ) : List ℚ :=
  npWhere (naMask low high) (List.replicate (naLow low high).length 1) (naHigh low high)

/-- The per-dimension behaviour the claim describes for `step`: on a
dimension whose original bounds are both finite, apply
`(a + 1) / 2 * (high - low) + low` with the original bounds; pass any other
dimension through unchanged. -/
def naStepSpec : List XQ → List XQ → List ℚ → List ℚ
  | XQ.val l :: ls, XQ.val h :: hs, x :: xs => ((x + 1) / 2 * (h - l) + l) :: naStepSpec ls hs xs
  | _ :: ls, _ :: hs, x :: xs => x :: naStepSpec ls hs xs
  | _, _, _ => []

/- ## Synchronization traces (claim about concurrency coordination)

The only synchronization construct in the repository is the class-level
`Atari.LOCK = threading.Lock()`: `Atari.__init__` and `Atari.reset` execute
under `with self.LOCK:` (`envs.py` lines 88 and 119); no other method of any
class touches a lock or any other inter-thread synchronization primitive.
Each operation is assigned the sequence of lock events its body performs. -/

inductive SyncEvent where
  | acquire : String → SyncEvent
  | release : String → SyncEvent
deriving DecidableEq, Repr

inductive EnvClass where
  | DMC | Atari | Sc2 | Dummy | TimeLimit | NormalizeAction | OneHotAction
  | RewardObs | ResetObs
deriving DecidableEq, Repr

inductive EnvOp where
  | construct | step | reset
deriving DecidableEq, Repr

/-- The lock events performed directly by each operation of each class. -/
def syncTrace : EnvClass → EnvOp → List SyncEvent
  | EnvClass.Atari, EnvOp.construct =>
      [SyncEvent.acquire "Atari.LOCK", SyncEvent.release "Atari.LOCK"]
  | EnvClass.Atari, EnvOp.reset =>
      [SyncEvent.acquire "Atari.LOCK", SyncEvent.release "Atari.LOCK"]
  | _, _ => []

/- ## The uniform step/reset interface

Python values flowing through observations and actions are modelled by
`Val`; observation and action dictionaries are `List (String × Val)`.
`step` returns a 4-tuple `(obs, reward, done, info)` bundled as `StepOut`;
operations that can raise (failed dictionary lookups, numpy errors, failed
assertions) return `none`. -/

inductive Val where
  | num : ℚ → Val
  | bool : Bool → Val
  | str : String → Val
  | arr : List Val → Val
  | dict : List (String × Val) → Val

def Val.isDict : Val → Bool
  | Val.dict _ => true
  | _ => false

/-- Integer read off a numeric value (Python would use the value as an int). -/
def Val.asInt : Val → Option Int
  | Val.num q => if q.den == 1 then some q.num else none
  | _ => none

def Val.asNat : Val → Option Nat
  | Val.num q => if q.den == 1 && 0 ≤ q.num then some q.num.toNat else none
  | _ => none

def valToQList : Val → Option (List ℚ)
  | Val.arr l => l.mapM (fun v => match v with | Val.num q => some q | _ => none)
  | _ => none

structure StepOut where
  obs : Val
  reward : ℚ
  done : Bool
  info : List (String × Val)

/-- The uniform interface every adapter and wrapper presents: `step` maps an
action dictionary and a state to a `(obs, reward, done, info)` tuple (or an
error), `reset` maps a state to an observation (or an error). -/
structure Env (S : Type) where
  step : List (String × Val) → S → Option (StepOut × S)
  reset : S → Option (Val × S)

/- ### DMC (`envs.py` lines 15-74) -/

structure DmcTimestep where
  observation : List (String × Val)
  reward : Option ℚ
  discount : ℚ
  isLast : Bool

/-- The dm_control simulator behind `self._env`, abstracted. -/
structure DmcSim (S : Type) where
  step : Val → S → DmcTimestep × S
  reset : S → DmcTimestep × S
  render : S → Val

/-- The action-repeat loop of `DMC.step`: step the simulator up to
`actionRepeat` times, accumulating `time_step.reward or 0`, breaking early on
a terminal timestep.  With `action_repeat = 0` the loop body never runs and
the subsequent read of `time_step` raises `NameError`, hence `none`. -/
def dmcRepeatLoop {S : Type} (sim : DmcSim S) (a : Val) :
    Nat → S → ℚ → Option (DmcTimestep × ℚ × S)
  | 0, _, _ => none
  | 1, s, acc =>
      let (ts, s') := sim.step a s
      some (ts, acc + ts.reward.getD 0, s')
  | (k + 2), s, acc =>
      let (ts, s') := sim.step a s
      let acc' := acc + ts.reward.getD 0
      if ts.isLast then some (ts, acc', s') else dmcRepeatLoop sim a (k + 1) s' acc'

/-- The `DMC` adapter.  (`assert np.isfinite(action).all()` always holds in
the rational model.) -/
def dmcEnv {S : Type} (sim : DmcSim S) (actionRepeat : Nat) : Env S where
  step a s :=
    match alookup a "action" with
    | none => none
    | some av =>
      match dmcRepeatLoop sim av actionRepeat s 0 with
      | none => none
      | some (ts, reward, s') =>
        some ({ obs := Val.dict (pyInsert ts.observation "image" (sim.render s')),
                reward := reward, done := ts.isLast,
                info := [("discount", Val.num ts.discount)] }, s')
  reset s :=
    let (ts, s') := sim.reset s
    some (Val.dict (pyInsert ts.observation "image" (sim.render s')), s')

/- ### Atari (`envs.py` lines 77-135) -/

/-- The preprocessed Atari emulator behind `self._env`, abstracted.
`step`/`reset` yield the (2-D, grayscale) screen image; `getRam` is
`self._env.env._get_ram()`. -/
structure AtariSim (S : Type) where
  step : Val → S → (Val × ℚ × Bool × List (String × Val)) × S
  reset : S → Val × S
  getRam : S → Val

/-- `image[..., None]` on a rank-2 array: wrap every innermost scalar in a
singleton axis. -/
def expandLastAxis (v : Val) : Val :=
  match v with
  | Val.arr rows =>
      Val.arr (rows.map (fun r =>
        match r with
        | Val.arr px => Val.arr (px.map (fun x => Val.arr [x]))
        | x => Val.arr [x]))
  | x => Val.arr [x]

def atariEnv {S : Type} (sim : AtariSim S) (grayscale : Bool) : Env S where
  step a s :=
    match alookup a "action" with
    | none => none
    | some av =>
      let ((image, reward, done, info), s') := sim.step av s
      let image := if grayscale then expandLastAxis image else image
      some ({ obs := Val.dict [("image", image), ("ram", sim.getRam s')],
              reward := reward, done := done, info := info }, s')
  reset s :=
    let (image, s') := sim.reset s
    let image := if grayscale then expandLastAxis image else image
    some (Val.dict [("image", image), ("ram", sim.getRam s')], s')

/- ### Sc2 (`envs.py` lines 138-383)

The StarCraft II engine is abstracted as `Sc2Sim`; its timesteps carry the
fields `collect_sc_observation` reads.  External numpy/pysc2 machinery that
the adapter merely applies (`np.stack` on the feature planes, the `Player`
and `FeatureUnit` column enumerations, the embed lookups) is carried in
`Sc2Cfg` as parameters. -/

structure Sc2Timestep where
  availableActions : List Nat
  screenPlanes : List Val
  miniPlanes : List Val
  player : List ℚ
  featureUnits : List (List Int)
  reward : ℚ
  isLast : Bool

structure Sc2Sim (S : Type) where
  step : Nat × List (List Int) → S → Sc2Timestep × S
  reset : S → Sc2Timestep × S

structure Sc2Cfg where
  fns : List SCFunction
  blocked : List Nat
  funcArgs : Nat → List Nat
  argSize : Nat → List Nat
  unitLookup : Int → Nat
  unitCols : List Nat
  unitMax : Nat
  playerIdx : List Nat
  npStack : List Val → Val

/-- `[self.action_embed_lookup[a] for a in av_actions if a not in self.blocked_actions]`;
a missing key raises `KeyError`. -/
def availIndices (lookup : List (Nat × Nat)) (blocked av : List Nat) : Option (List Nat) :=
  (av.filter (fun a => !(blocked.contains a))).mapM (alookup lookup)

/-- `action_categorical = np.zeros(n); action_categorical[indices] = 1`. -/
def setOnes (n : Nat) (idxs : List Nat) : List Nat :=
  idxs.foldl (fun v i => v.set i 1) (List.replicate n 0)

/-- `Sc2.collect_sc_observation`: the observation dictionary, with its keys in
source order.  Fails (`none`) exactly where the Python raises: an available
action missing from the embed lookup, or more than `unit_max` unit rows. -/
def collectScObservation (cfg : Sc2Cfg) (ts : Sc2Timestep) : Option Val :=
  match availIndices (getActionLookup cfg.fns cfg.blocked) cfg.blocked ts.availableActions with
  | none => none
  | some idxs =>
    match collectUnits cfg.unitLookup cfg.unitCols cfg.unitMax ts.featureUnits with
    | none => none
    | some (units, unitCount) =>
      some (Val.dict
        [("available_actions",
          Val.arr ((setOnes (getActionLookup cfg.fns cfg.blocked).length idxs).map
            (fun b => Val.num b))),
         ("screen", cfg.npStack ts.screenPlanes),
         ("mini", cfg.npStack ts.miniPlanes),
         ("player", Val.arr (cfg.playerIdx.map (fun i => Val.num (ts.player.getD i 0)))),
         ("units", Val.arr (units.map (fun r => Val.arr (r.map (fun z => Val.num (z : ℚ)))))),
         ("unit_count", Val.num unitCount)])

def sc2Env {S : Type} (cfg : Sc2Cfg) (sim : Sc2Sim S) : Env S where
  step a s :=
    match (alookup a "action_id").bind Val.asNat with
    | none => none
    | some embedId =>
      match alookup (actionIdLookup cfg.fns cfg.blocked) embedId with
      | none => none
      | some fid =>
        match (cfg.funcArgs fid).mapM
            (fun r => (getArgKeys cfg.argSize r).mapM
              (fun k => (alookup a k).bind Val.asInt)) with
        | none => none
        | some args =>
          let (ts, s') := sim.step (fid, args) s
          match collectScObservation cfg ts with
          | none => none
          | some obs =>
            some ({ obs := obs, reward := ts.reward, done := ts.isLast, info := [] }, s')
  reset s :=
    let (ts, s') := sim.reset s
    match collectScObservation cfg ts with
    | none => none
    | some obs => some (obs, s')

/- ### Dummy (`envs.py` lines 386-410) -/

def dummyObs : Val :=
  Val.dict [("image",
    Val.arr (List.replicate 64 (Val.arr (List.replicate 64
      (Val.arr (List.replicate 3 (Val.num 0)))))))]

def dummyEnv : Env Unit where
  step _ s := some ({ obs := dummyObs, reward := 0, done := false, info := [] }, s)
  reset s := some (dummyObs, s)

/- ### TimeLimit (`envs.py` lines 413-436)

The wrapper state pairs the inner state with `self._step : Option Nat`
(`None` before the first reset and after a forced episode end). -/

def timeLimitEnv {S : Type} (env : Env S) (duration : Nat) : Env (S × Option Nat) where
  step a p :=
    match p.2 with
    | none => none
    | some c =>
      match env.step a p.1 with
      | none => none
      | some (out, s') =>
        if duration ≤ c + 1 then
          some ({ out with
                  done := true
                  info := if out.info.any (fun q => q.1 == "discount") then out.info
                          else pyInsert out.info "discount" (Val.num 1) },
                (s', none))
        else
          some (out, (s', some (c + 1)))
  reset p :=
    match env.reset p.1 with
    | none => none
    | some (o, s') => some (o, (s', some 0))

/- ### NormalizeAction (`envs.py` lines 439-462)

`__init__` reads `env.action_space[key].low/high`; those bounds are passed
in directly.  The class defines no `reset`, so `__getattr__` delegates it to
the wrapped environment. -/

def normalizeActionEnv {S : Type} (env : Env S) (low high : List XQ) (key : String) :
    Env S where
  step a s :=
    match alookup a key with
    | none => none
    | some v =>
      match valToQList v with
      | none => none
      | some xs =>
        env.step (pyInsert a key (Val.arr ((naStep low high xs).map Val.num))) s
  reset := env.reset

/- ### OneHotAction (`envs.py` lines 465-508) -/

def oneHotEnv {S : Type} (env : Env S) (keys : List String) : Env S where
  step a s :=
    match keys.mapM (fun k =>
        ((alookup a k).bind valToQList).map
          (fun xs => (k, Val.num (oneHotStepIndex xs : ℚ)))) with
    | none => none
    | some pairs => env.step pairs s
  reset := env.reset

/- ### RewardObs (`envs.py` lines 511-535)

`step` assigns `obs['reward'] = reward` (the literal key, not `self._key`);
the assignment needs a dictionary observation. -/

def rewardObsEnv {S : Type} (env : Env S) : Env S where
  step a s :=
    match env.step a s with
    | none => none
    | some (out, s') =>
      match out.obs with
      | Val.dict fs =>
        some ({ out with obs := Val.dict (pyInsert fs "reward" (Val.num out.reward)) }, s')
      | _ => none
  reset s :=
    match env.reset s with
    | none => none
    | some (o, s') =>
      match o with
      | Val.dict fs => some (Val.dict (pyInsert fs "reward" (Val.num 0)), s')
      | _ => none

/- ### ResetObs (`envs.py` lines 538-562) -/

def resetObsEnv {S : Type} (env : Env S) : Env S where
  step a s :=
    match env.step a s with
    | none => none
    | some (out, s') =>
      match out.obs with
      | Val.dict fs =>
        some ({ out with obs := Val.dict (pyInsert fs "reset" (Val.bool false)) }, s')
      | _ => none
  reset s :=
    match env.reset s with
    | none => none
    | some (o, s') =>
      match o with
      | Val.dict fs => some (Val.dict (pyInsert fs "reset" (Val.bool true)), s')
      | _ => none

/-- The interface property of the claim: whenever `step` succeeds its
observation component is a dictionary, and whenever `reset` succeeds it
yields a dictionary observation. -/
def uniformDict {S : Type} (env : Env S) : Prop :=
  (∀ a s r, env.step a s = some r → r.1.obs.isDict = true) ∧
  (∀ s r, env.reset s = some r → r.1.isDict = true)

/- ## Set transformer (`common/models/set_transformer.py`)

Tensors are modelled per batch element as lists of rows over an ordered
field `K`; the batch axis is an outer list.  The transcendental primitives
`exp` (inside `tf.nn.softmax`) and `sqrt` (in the attention scaling and in
layer normalization) are passed as parameters `ex` and `sq`, so every
statement below holds in particular over the reals with the genuine
`exp`/`sqrt`.  A dense kernel is stored output-major (one row per output
unit), so `y = x Wᵀ` rowwise. -/

def dotK {K : Type} [LinearOrderedField K] (xs ys : List K) : K :=
  (List.zipWith (fun a b => a * b) xs ys).sum

/-- One output row of a bias-free dense layer. -/
def matVec {K : Type} [LinearOrderedField K] (w : List (List K)) (x : List K) : List K :=
  w.map (fun r => dotK r x)

/-- `tf.keras.layers.Dense(..., use_bias=False)` applied to a `seq × d` input. -/
def denseNB {K : Type} [LinearOrderedField K] (w : List (List K)) (x : List (List K)) :
    List (List K) :=
  x.map (matVec w)

/-- `tf.keras.layers.Dense` with bias applied to a `seq × d` input. -/
def denseB {K : Type} [LinearOrderedField K] (w : List (List K)) (b : List K)
    (x : List (List K)) : List (List K) :=
  x.map (fun r => List.zipWith (fun u v => u + v) (matVec w r) b)

/-- Head `hIdx`'s slice of one row, after the reshape in `split_heads`. -/
def headSlice {K : Type} (depth hIdx : Nat) (r : List K) : List K :=
  (r.drop (hIdx * depth)).take depth

/-- `MultiHeadAttention.split_heads`: reshape `(n, d_model)` to
`(num_heads, n, depth)` (the transpose to put heads first is explicit in the
source). -/
def splitHeads {K : Type} (numHeads depth : Nat) (x : List (List K)) :
    List (List (List K)) :=
  (List.range numHeads).map (fun hi => x.map (headSlice depth hi))

/-- `tf.nn.softmax` on one row of logits. -/
def softmaxRow {K : Type} [LinearOrderedField K] (ex : K → K) (r : List K) : List K :=
  let e := r.map ex
  e.map (fun x => x / e.sum)

/-- Elementwise vector addition, padding with the longer argument (the
identity element is `[]`). -/
def addPad {K : Type} [LinearOrderedField K] : List K → List K → List K
  | [], ys => ys
  | x :: xs, [] => x :: xs
  | x :: xs, y :: ys => (x + y) :: addPad xs ys

def vecSum {K : Type} [LinearOrderedField K] (rows : List (List K)) : List K :=
  rows.foldr addPad []

/-- One output row of `tf.matmul(attention_weights, v)`:
`Σ_j w_j • v_j`. -/
def attnRow {K : Type} [LinearOrderedField K] (w : List K) (vs : List (List K)) : List K :=
  vecSum (List.zipWith (fun a r => r.map (fun x => a * x)) w vs)

/-- `scaled_dot_product_attention` on one attention head.  `dk` is the size
of the last axis of `k` (the per-head depth); the mask, when present, is the
key-axis padding mask broadcast over queries, added as `mask * -1e9`. -/
def sdpa {K : Type} [LinearOrderedField K] (ex sq : K → K) (dk : Nat)
    (q ks vs : List (List K)) (mask : Option (List K)) : List (List K) :=
  q.map (fun qr =>
    let logits := ks.map (fun kr => dotK qr kr / sq ((dk : Nat) : K))
    let masked :=
      match mask with
      | none => logits
      | some m => List.zipWith (fun l mv => l + mv * (-(1000000000 : K))) logits m
    attnRow (softmaxRow ex masked) vs)

/-- The transpose/reshape pair after attention: interleave the heads back
into `(n, num_heads * depth)` rows. -/
def combineHeads {K : Type} (heads : List (List (List K))) : List (List K) :=
  match heads with
  | [] => []
  | h0 :: _ => (List.range h0.length).map
      (fun i => (heads.map (fun hd => hd.getD i [])).flatten)

def zipWith3K {α β γ δ : Type} (f : α → β → γ → δ) :
    List α → List β → List γ → List δ
  | a :: as, b :: bs, c :: cs => f a b c :: zipWith3K f as bs cs
  | _, _, _ => []

structure MHAWeights (K : Type) where
  wq : List (List K)
  wk : List (List K)
  wv : List (List K)
  wo : List (List K)
  numHeads : Nat
  depth : Nat

/-- `MultiHeadAttention.call` on one batch element. -/
def mhaCall {K : Type} [LinearOrderedField K] (ex sq : K → K) (W : MHAWeights K)
    (q k v : List (List K)) (mask : Option (List K)) : List (List K) :=
  let qh := splitHeads W.numHeads W.depth (denseNB W.wq q)
  let kh := splitHeads W.numHeads W.depth (denseNB W.wk k)
  let vh := splitHeads W.numHeads W.depth (denseNB W.wv v)
  denseNB W.wo (combineHeads (zipWith3K (fun qi ki vi => sdpa ex sq W.depth qi ki vi mask) qh kh vh))

/-- `tf.nn.leaky_relu` with its default slope 0.2. -/
def leakyRelu {K : Type} [LinearOrderedField K] (x : K) : K :=
  if x < 0 then x / 5 else x

structure FFNWeights (K : Type) where
  w1 : List (List K)
  b1 : List K
  w2 : List (List K)
  b2 : List K

/-- `PointwiseFeedforward.call`. -/
def ffnCall {K : Type} [LinearOrderedField K] (F : FFNWeights K) (x : List (List K)) :
    List (List K) :=
  denseB F.w2 F.b2 ((denseB F.w1 F.b1 x).map (List.map leakyRelu))

/-- One row of `tf.keras.layers.LayerNormalization(epsilon=1e-6)` with
learned gain `g` and bias `be`. -/
def layerNormRow {K : Type} [LinearOrderedField K] (sq : K → K) (g be : List K)
    (r : List K) : List K :=
  let n : K := (r.length : Nat)
  let mu := r.sum / n
  let varr := (r.map (fun x => (x - mu) ^ 2)).sum / n
  let normed := r.map (fun x => (x - mu) / sq (varr + 1 / 1000000))
  List.zipWith (fun u v => u + v) (List.zipWith (fun u v => u * v) normed g) be

structure TLWeights (K : Type) where
  mha : MHAWeights K
  ffn : FFNWeights K
  g1 : List K
  be1 : List K
  g2 : List K
  be2 : List K

def matAdd {K : Type} [LinearOrderedField K] (x y : List (List K)) : List (List K) :=
  List.zipWith (List.zipWith (fun u v => u + v)) x y

/-- `TransformerLayer.call x y mask`: attention of `x` over `y`, residual,
layer norm, pointwise feedforward, residual, layer norm. -/
def tlCall {K : Type} [LinearOrderedField K] (ex sq : K → K) (T : TLWeights K)
    (x y : List (List K)) (mask : Option (List K)) : List (List K) :=
  let out1 := (matAdd x (mhaCall ex sq T.mha x y y mask)).map (layerNormRow sq T.g1 T.be1)
  (matAdd out1 (ffnCall T.ffn out1)).map (layerNormRow sq T.g2 T.be2)

structure PMAWeights (K : Type) where
  mab : TLWeights K
  seed : List (List K)

/-- `PoolingMultiheadAttention.call` on a batch: tile the seed vectors over
the batch and attend from them over each batch element. -/
def pmaCall {K : Type} [LinearOrderedField K] (ex sq : K → K) (P : PMAWeights K)
    (xs : List (List (List K))) (mask : Option (List K)) : List (List (List K)) :=
  xs.map (fun x => tlCall ex sq P.mab P.seed x mask)

/-- Permutation of the entity axis: reorder a list by a list of positions
(`p` is a permutation of `range n` in all statements below). -/
def applyPerm {α : Type} (dflt : α) (p : List Nat) (l : List α) : List α :=
  p.map (fun i => l.getD i dflt)

/- ### Concrete trivial simulators, for instantiating the interface
statements. -/

def trivDmcSim : DmcSim Unit where
  step _ s := ({ observation := [], reward := none, discount := 1, isLast := true }, s)
  reset s := ({ observation := [], reward := none, discount := 1, isLast := false }, s)
  render _ := Val.num 0

def trivAtariSim : AtariSim Unit where
  step _ s := ((Val.num 0, 0, false, []), s)
  reset s := (Val.num 0, s)
  getRam _ := Val.num 0

def trivSc2Cfg : Sc2Cfg where
  fns := []
  blocked := []
  funcArgs _ := []
  argSize _ := []
  unitLookup _ := 0
  unitCols := []
  unitMax := 0
  playerIdx := []
  npStack _ := Val.num 0

def trivSc2Timestep : Sc2Timestep where
  availableActions := []
  screenPlanes := []
  miniPlanes := []
  player := []
  featureUnits := []
  reward := 0
  isLast := true

def trivSc2Sim : Sc2Sim Unit where
  step _ s := (trivSc2Timestep, s)
  reset s := (trivSc2Timestep, s)

/- ### Concrete one-unit set-transformer weights for instantiations
(`d_model = 1`, one head, one seed vector). -/

def demoMHA : MHAWeights ℚ where
  wq := [[1]]
  wk := [[1]]
  wv := [[1]]
  wo := [[1]]
  numHeads := 1
  depth := 1

def demoFFN : FFNWeights ℚ where
  w1 := [[1]]
  b1 := [1]
  w2 := [[1]]
  b2 := [1]

def demoTL : TLWeights ℚ where
  mha := demoMHA
  ffn := demoFFN
  g1 := [1]
  be1 := [1]
  g2 := [1]
  be2 := [1]

def demoPMA : PMAWeights ℚ where
  mab := demoTL
  seed := [[1]]

/-!
## Theorems
-/

/- ### C1: unit padding/truncation in `collect_sc_observation` -/

/-- C1.  With `max_units = 2`, a timestep carrying one unit row is
zero-padded to exactly 2 rows with `unit_count = 1`, but a timestep carrying
3 unit rows makes `collect_sc_observation` raise (numpy rejects the negative
padding dimension `unit_max - 3`): longer unit lists are never reduced to
`max_units`, contradicting both the claim and the source's own
`# units on the screen => limit to 200` comment. -/
theorem c1_units_pad_or_raise :
    collectUnits (fun _ => 0) [1] 2 [[7, 5]] = some ([[0, 5], [0, 0]], 1)
    ∧ collectUnits (fun _ => 0) [1] 2 [[7, 5], [8, 6], [9, 4]] = none := by
  decide

/- ### C7: concurrency coordination -/

/-- C7 counterexample.  The claim says no operation of any class acquires a
lock, but `Atari.reset` runs under `with self.LOCK:`—its synchronization
trace is a lock acquisition/release pair, not the empty trace. -/
theorem c7_atari_lock_cex :
    syncTrace EnvClass.Atari EnvOp.reset =
      [SyncEvent.acquire "Atari.LOCK", SyncEvent.release "Atari.LOCK"]
    ∧ syncTrace EnvClass.Atari EnvOp.reset ≠ [] := by
  exact ⟨rfl, by simp [syncTrace]⟩

/-- C7 (amended).  Every operation of every adapter/wrapper class performs no
lock acquisition or other inter-thread synchronization, except that
`Atari.__init__` and `Atari.reset` acquire and release the class-level
`Atari.LOCK`; `Atari.step` stays lock-free. -/
theorem c7_sync_traces :
    (∀ c o, c ≠ EnvClass.Atari ∨ o = EnvOp.step → syncTrace c o = [])
    ∧ syncTrace EnvClass.Atari EnvOp.construct =
        [SyncEvent.acquire "Atari.LOCK", SyncEvent.release "Atari.LOCK"]
    ∧ syncTrace EnvClass.Atari EnvOp.step = [] := by
  refine ⟨?_, rfl, rfl⟩
  intro c o h
  cases c <;> cases o <;> simp [syncTrace] <;>
    rcases h with h | h <;> simp_all

/-- Witness for `c7_sync_traces` at `DMC.reset`. -/
theorem c7_sync_traces_witness :
    (EnvClass.DMC ≠ EnvClass.Atari ∨ EnvOp.reset = EnvOp.step)
    ∧ syncTrace EnvClass.DMC EnvOp.reset = [] :=
  ⟨Or.inl (by simp), c7_sync_traces.1 EnvClass.DMC EnvOp.reset (Or.inl (by simp))⟩

/- ### C9: OneHotAction.step -/

/-- C9 counterexample.  `[1, 1e-9]` is not a one-hot vector (its second
entry is not zero), so the claim requires the sentinel `-1`; but
`np.allclose` tolerates the `1e-9` deviation from the reference one-hot, so
`OneHotAction.step` forwards the argmax index 0. -/
theorem c9_allclose_cex :
    oneHotStepIndex [1, 1 / 1000000000] = 0
    ∧ isOneHot [1, 1 / 1000000000] = false := by
  constructor
  · have hle : (1 : ℚ) / 1000000000 ≤ 1 := by norm_num
    have h1 : npArgmax [1, 1 / 1000000000] = 0 := by
      show npArgmaxAux [1 / 1000000000] 1 0 1 = 0
      show (if (1 : ℚ) < 1 / 1000000000 then npArgmaxAux [] 2 1 (1 / 1000000000)
            else npArgmaxAux [] 2 0 1) = 0
      rw [if_neg (not_lt.mpr hle)]
      rfl
    have href : oneHotRef [1, 1 / 1000000000] = [1, 0] := by
      simp only [oneHotRef, h1]
      rfl
    have e1 : |(1 : ℚ) - 1| ≤ 1 / 100000000 + 1 / 100000 * |(1 : ℚ)| := by norm_num
    have e2 : |(0 : ℚ) - 1 / 1000000000|
        ≤ 1 / 100000000 + 1 / 100000 * |(1 : ℚ) / 1000000000| := by
      rw [zero_sub, abs_neg,
          abs_of_nonneg (show (0 : ℚ) ≤ 1 / 1000000000 by norm_num)]
      norm_num
    have h2 : npAllclose (oneHotRef [1, 1 / 1000000000]) [1, 1 / 1000000000] = true := by
      rw [href]
      simp only [npAllclose, List.zip_cons_cons, List.zip_nil_right, List.all_cons,
        List.all_nil, Bool.and_eq_true, decide_eq_true_eq, and_true]
      exact ⟨e1, e2⟩
    have hunf : oneHotStepIndex [1, 1 / 1000000000]
        = if npAllclose (oneHotRef [1, 1 / 1000000000]) [1, 1 / 1000000000]
          then (npArgmax [1, 1 / 1000000000] : Int) else -1 := rfl
    rw [hunf, if_pos h2, h1]
    rfl
  · have : ¬ ((1 : ℚ) / 1000000000 = 0 ∨ (1 : ℚ) / 1000000000 = 1) := by norm_num
    simp [isOneHot, this]

theorem npArgmaxAux_no_beat (l : List ℚ) :
    ∀ i best bv, (∀ x ∈ l, ¬ bv < x) → npArgmaxAux l i best bv = best := by
  induction l with
  | nil => intro i best bv _; rfl
  | cons x xs ih =>
    intro i best bv h
    have hx : ¬ bv < x := h x (by simp)
    simp only [npArgmaxAux, if_neg hx]
    exact ih (i + 1) best bv (fun y hy => h y (by simp [hy]))

theorem npArgmaxAux_zeros_then_one (m' : Nat) :
    ∀ m i best, npArgmaxAux (List.replicate m 0 ++ 1 :: List.replicate m' (0 : ℚ)) i best 0
      = i + m := by
  intro m
  induction m with
  | zero =>
    intro i best
    have h01 : (0 : ℚ) < 1 := by norm_num
    rw [List.replicate_zero, List.nil_append]
    show (if (0 : ℚ) < 1 then npArgmaxAux (List.replicate m' 0) (i + 1) i 1
          else npArgmaxAux (List.replicate m' 0) (i + 1) best 0) = i + 0
    rw [if_pos h01,
        npArgmaxAux_no_beat (List.replicate m' (0 : ℚ)) (i + 1) i 1
          (by intro x hx; rw [List.eq_of_mem_replicate hx]; norm_num)]
    omega
  | succ k ih =>
    intro i best
    have h00 : ¬ (0 : ℚ) < 0 := by norm_num
    rw [List.replicate_succ, List.cons_append]
    show (if (0 : ℚ) < 0 then
            npArgmaxAux (List.replicate k 0 ++ 1 :: List.replicate m' 0) (i + 1) i 0
          else npArgmaxAux (List.replicate k 0 ++ 1 :: List.replicate m' 0) (i + 1) best 0)
        = i + (k + 1)
    rw [if_neg h00, ih (i + 1) best]
    omega

theorem npArgmax_zeros_one_zeros (k m : Nat) :
    npArgmax (List.replicate k 0 ++ 1 :: List.replicate m (0 : ℚ)) = k := by
  cases k with
  | zero =>
    rw [List.replicate_zero, List.nil_append]
    show npArgmaxAux (List.replicate m (0 : ℚ)) 1 0 1 = 0
    exact npArgmaxAux_no_beat (List.replicate m (0 : ℚ)) 1 0 1
      (by intro x hx; rw [List.eq_of_mem_replicate hx]; norm_num)
  | succ k =>
    rw [List.replicate_succ, List.cons_append]
    show npArgmaxAux (List.replicate k 0 ++ 1 :: List.replicate m (0 : ℚ)) 1 0 0 = k + 1
    rw [npArgmaxAux_zeros_then_one m k 1 0]
    omega

theorem zeros_of_count_zero :
    ∀ l : List ℚ, (∀ x ∈ l, x = 0 ∨ x = 1) → l.count 1 = 0 →
      l = List.replicate l.length 0 := by
  intro l
  induction l with
  | nil => intro _ _; rfl
  | cons x xs ih =>
    intro hall hc
    rcases hall x (by simp) with h0 | h1
    · subst h0
      have hxs : xs.count 1 = 0 := by
        simp [List.count_cons] at hc
        omega
      rw [List.length_cons, List.replicate_succ,
          ← ih (fun y hy => hall y (by simp [hy])) hxs]
    · subst h1
      simp [List.count_cons] at hc

theorem isOneHot_decomp (a : List ℚ) (h : isOneHot a = true) :
    ∃ k m, a = List.replicate k 0 ++ 1 :: List.replicate m (0 : ℚ) := by
  simp only [isOneHot, Bool.and_eq_true, beq_iff_eq, List.all_eq_true] at h
  obtain ⟨hc, hall⟩ := h
  have hall' : ∀ x ∈ a, x = 0 ∨ x = 1 := by
    intro x hx
    have := hall x hx
    simpa using this
  clear hall
  induction a with
  | nil => simp at hc
  | cons x xs ih =>
    rcases hall' x (by simp) with h0 | h1
    · subst h0
      have hc' : xs.count 1 = 1 := by
        simp [List.count_cons] at hc
        omega
      obtain ⟨k, m, hkm⟩ := ih hc' (fun y hy => hall' y (by simp [hy]))
      refine ⟨k + 1, m, ?_⟩
      rw [hkm, List.replicate_succ, List.cons_append]
    · subst h1
      have hc' : xs.count 1 = 0 := by
        simp [List.count_cons] at hc
        omega
      refine ⟨0, xs.length, ?_⟩
      rw [List.replicate_zero, List.nil_append,
          ← zeros_of_count_zero xs (fun y hy => hall' y (by simp [hy])) hc']

theorem set_replicate_zeros (m : Nat) :
    ∀ k, (List.replicate (k + (m + 1)) (0 : ℚ)).set k 1
      = List.replicate k 0 ++ 1 :: List.replicate m (0 : ℚ) := by
  intro k
  induction k with
  | zero =>
    rw [Nat.zero_add, List.replicate_succ, List.set_cons_zero, List.replicate_zero,
        List.nil_append]
  | succ j ih =>
    have h1 : j + 1 + (m + 1) = (j + (m + 1)) + 1 := by omega
    rw [h1, List.replicate_succ, List.set_cons_succ, ih, List.replicate_succ,
        List.cons_append]

theorem npAllclose_self (a : List ℚ) : npAllclose a a = true := by
  induction a with
  | nil => rfl
  | cons x xs ih =>
    have hx : |x - x| ≤ 1 / 100000000 + 1 / 100000 * |x| := by
      rw [sub_self, abs_zero]
      positivity
    simp only [npAllclose, List.zip_cons_cons, List.all_cons, Bool.and_eq_true,
      decide_eq_true_eq] at ih ⊢
    exact ⟨hx, ih⟩

theorem getD_replicate_one (k : Nat) (t : List ℚ) :
    (List.replicate k (0 : ℚ) ++ 1 :: t).getD k 0 = 1 := by
  induction k with
  | zero => rfl
  | succ j ih =>
    rw [List.replicate_succ, List.cons_append]
    simpa using ih

/-- C9 (amended).  For every non-empty action vector `a`, `OneHotAction.step`
forwards the index `argmax(a)` if and only if `a` is within `np.allclose`
tolerance (`atol = 1e-8`, `rtol = 1e-5`) of the one-hot reference vector at
its argmax — in particular it does so for every exactly one-hot `a`, whose
hot position is the argmax — and forwards the sentinel `-1` exactly
otherwise; vectors that are merely close to one-hot (but not equal to it)
are forwarded too, not sent to `-1`. -/
theorem c9_onehot_step (a : List ℚ) (ha : a ≠ []) :
    (isOneHot a = true →
      oneHotStepIndex a = (npArgmax a : Int) ∧ a.getD (npArgmax a) 0 = 1)
    ∧ (oneHotStepIndex a = -1 ↔ npAllclose (oneHotRef a) a = false)
    ∧ (npAllclose (oneHotRef a) a = true → oneHotStepIndex a = (npArgmax a : Int)) := by
  have hunf : oneHotStepIndex a
      = if npAllclose (oneHotRef a) a then (npArgmax a : Int) else -1 := rfl
  refine ⟨?_, ?_, ?_⟩
  · intro h
    obtain ⟨k, m, hkm⟩ := isOneHot_decomp a h
    have hlen : a.length = k + (m + 1) := by
      subst hkm
      rw [List.length_append, List.length_replicate, List.length_cons,
          List.length_replicate]
    have hargmax : npArgmax a = k := by rw [hkm]; exact npArgmax_zeros_one_zeros k m
    have href : oneHotRef a = a := by
      rw [oneHotRef, hargmax, hlen, set_replicate_zeros m k, ← hkm]
    constructor
    · rw [hunf, href, if_pos (npAllclose_self a)]
    · rw [hargmax, hkm]
      exact getD_replicate_one k (List.replicate m 0)
  · rw [hunf]
    by_cases hcl : npAllclose (oneHotRef a) a = true
    · rw [if_pos hcl]
      constructor
      · intro h; omega
      · intro h; rw [hcl] at h; cases h
    · rw [if_neg hcl]
      simp only [Bool.not_eq_true] at hcl
      exact ⟨fun _ => hcl, fun _ => rfl⟩
  · intro hcl
    rw [hunf, if_pos hcl]

/-- Witness for `c9_onehot_step` at the one-hot vector `[0, 1, 0]`. -/
theorem c9_onehot_step_witness :
    ([(0 : ℚ), 1, 0] ≠ [])
    ∧ isOneHot [(0 : ℚ), 1, 0] = true
    ∧ oneHotStepIndex [(0 : ℚ), 1, 0] = (npArgmax [(0 : ℚ), 1, 0] : Int)
    ∧ [(0 : ℚ), 1, 0].getD (npArgmax [(0 : ℚ), 1, 0]) 0 = 1 :=
  ⟨by simp, by decide,
   ((c9_onehot_step [0, 1, 0] (by simp)).1 (by decide)).1,
   ((c9_onehot_step [0, 1, 0] (by simp)).1 (by decide)).2⟩

/- ### C2: Sc2 action-space enumeration -/

theorem pyInsert_fresh {κ β : Type} [BEq κ] [LawfulBEq κ] (d : List (κ × β)) (k : κ)
    (v : β) (h : ∀ p ∈ d, p.1 ≠ k) : pyInsert d k v = d ++ [(k, v)] := by
  have hany : (d.any (fun p => p.1 == k)) = false := by
    rw [List.any_eq_false]
    intro p hp
    simp [h p hp]
  simp [pyInsert, hany]

theorem lookupSpec_length : ∀ (l : List SCFunction) (i : Nat),
    (lookupSpec l i).length = l.length := by
  intro l
  induction l with
  | nil => intro i; rfl
  | cons f rest ih => intro i; simp [lookupSpec, ih]

theorem lookupSpec_map_fst : ∀ (l : List SCFunction) (i : Nat),
    (lookupSpec l i).map Prod.fst = l.map SCFunction.fid := by
  intro l
  induction l with
  | nil => intro i; rfl
  | cons f rest ih => intro i; simp [lookupSpec, ih]

theorem lookupSpec_map_snd : ∀ (l : List SCFunction) (i : Nat),
    (lookupSpec l i).map Prod.snd = List.range' i l.length := by
  intro l
  induction l with
  | nil => intro i; rfl
  | cons f rest ih => intro i; simp [lookupSpec, ih, List.range'_succ]

theorem lookupSpec_mem : ∀ (l : List SCFunction) (i : Nat) (p : Nat × Nat),
    p ∈ lookupSpec l i → (∃ f ∈ l, p.1 = f.fid) ∧ i ≤ p.2 := by
  intro l
  induction l with
  | nil => intro i p hp; cases hp
  | cons f rest ih =>
    intro i p hp
    rcases List.mem_cons.mp hp with h | h
    · subst h
      exact ⟨⟨f, by simp, rfl⟩, le_refl i⟩
    · obtain ⟨⟨g, hg, hfst⟩, hle⟩ := ih (i + 1) p h
      exact ⟨⟨g, by simp [hg], hfst⟩, by omega⟩

theorem lookupSpec_pairwise_fst (l : List SCFunction)
    (h : l.Pairwise (fun f g => f.fid ≠ g.fid)) :
    ∀ i, (lookupSpec l i).Pairwise (fun p q => p.1 ≠ q.1) := by
  induction l with
  | nil => intro i; exact List.Pairwise.nil
  | cons f rest ih =>
    intro i
    rcases h with _ | ⟨hf, hrest⟩
    refine List.Pairwise.cons ?_ (ih hrest (i + 1))
    intro q hq
    obtain ⟨⟨g, hg, hfst⟩, _⟩ := lookupSpec_mem rest (i + 1) q hq
    rw [hfst]
    exact hf g hg

theorem lookupSpec_pairwise_snd (l : List SCFunction) :
    ∀ i, (lookupSpec l i).Pairwise (fun p q => p.2 ≠ q.2) := by
  induction l with
  | nil => intro i; exact List.Pairwise.nil
  | cons f rest ih =>
    intro i
    refine List.Pairwise.cons ?_ (ih (i + 1))
    intro q hq
    have := (lookupSpec_mem rest (i + 1) q hq).2
    omega

theorem getActionLookupAux_eq (blocked : List Nat) :
    ∀ (fns : List SCFunction) (d : List (Nat × Nat)) (index : Nat),
      (selectedFunctions fns blocked).Pairwise (fun f g => f.fid ≠ g.fid) →
      (∀ f ∈ selectedFunctions fns blocked, ∀ p ∈ d, p.1 ≠ f.fid) →
      getActionLookupAux blocked fns d index
        = d ++ lookupSpec (selectedFunctions fns blocked) index := by
  intro fns
  induction fns with
  | nil =>
    intro d index _ _
    simp [getActionLookupAux, selectedFunctions, lookupSpec]
  | cons f rest ih =>
    intro d index hpw hdisj
    by_cases hf : (f.generalId == 0 && !(blocked.contains f.fid)) = true
    · have hsel : selectedFunctions (f :: rest) blocked
          = f :: selectedFunctions rest blocked := by
        unfold selectedFunctions
        rw [List.filter_cons, if_pos hf]
      rw [hsel] at hpw hdisj
      rcases hpw with _ | ⟨hfhd, hptl⟩
      have hins : pyInsert d f.fid index = d ++ [(f.fid, index)] :=
        pyInsert_fresh d f.fid index (fun p hp => hdisj f (by simp) p hp)
      have hstep : getActionLookupAux blocked (f :: rest) d index
          = getActionLookupAux blocked rest (pyInsert d f.fid index) (index + 1) := by
        simp only [getActionLookupAux]
        rw [if_pos hf]
      have hditail : ∀ g ∈ selectedFunctions rest blocked,
          ∀ p ∈ d ++ [(f.fid, index)], p.1 ≠ g.fid := by
        intro g hg p hp
        rcases List.mem_append.mp hp with hpd | hps
        · exact hdisj g (List.mem_cons_of_mem f hg) p hpd
        · have hp1 : p = (f.fid, index) := by simpa using hps
          rw [hp1]
          exact hfhd g hg
      rw [hstep, hins, ih (d ++ [(f.fid, index)]) (index + 1) hptl hditail, hsel]
      simp [lookupSpec, List.append_assoc]
    · have hsel : selectedFunctions (f :: rest) blocked
          = selectedFunctions rest blocked := by
        unfold selectedFunctions
        rw [List.filter_cons, if_neg hf]
      rw [hsel] at hpw hdisj
      have hstep : getActionLookupAux blocked (f :: rest) d index
          = getActionLookupAux blocked rest d index := by
        simp only [getActionLookupAux]
        rw [if_neg hf]
      rw [hstep, ih d index hpw hdisj, hsel]

theorem dictOfPairs_aux {κ β : Type} [BEq κ] [LawfulBEq κ] :
    ∀ (ps d : List (κ × β)),
      (∀ p ∈ ps, ∀ q ∈ d, q.1 ≠ p.1) → ps.Pairwise (fun p q => p.1 ≠ q.1) →
      ps.foldl (fun d p => pyInsert d p.1 p.2) d = d ++ ps := by
  intro ps
  induction ps with
  | nil => intro d _ _; simp
  | cons p rest ih =>
    intro d hdisj hpw
    rcases hpw with _ | ⟨hhd, htl⟩
    have hins : pyInsert d p.1 p.2 = d ++ [p] := by
      have := pyInsert_fresh d p.1 p.2 (fun q hq => hdisj p (by simp) q hq)
      simpa using this
    have hdisj' : ∀ r ∈ rest, ∀ q ∈ d ++ [p], q.1 ≠ r.1 := by
      intro r hr q hq
      rcases List.mem_append.mp hq with hqd | hqp
      · exact hdisj r (List.mem_cons_of_mem p hr) q hqd
      · have : q = p := by simpa using hqp
        rw [this]
        exact hhd r hr
    rw [List.foldl_cons, hins, ih (d ++ [p]) hdisj' htl, List.append_assoc,
        List.singleton_append]

theorem dictOfPairs_distinct {κ β : Type} [BEq κ] [LawfulBEq κ] (ps : List (κ × β))
    (h : ps.Pairwise (fun p q => p.1 ≠ q.1)) : dictOfPairs ps = ps := by
  have := dictOfPairs_aux ps [] (by intro p _ q hq; cases hq) h
  simpa [dictOfPairs] using this

theorem find?_cons_eq {α : Type} (p : α → Bool) (a : α) (l : List α) :
    List.find? p (a :: l) = if p a then some a else List.find? p l := by
  by_cases h : p a = true
  · rw [List.find?_cons_of_pos l h, if_pos h]
  · rw [List.find?_cons_of_neg l h, if_neg h]

theorem alookup_eq_some_iff {κ β : Type} [BEq κ] [LawfulBEq κ] :
    ∀ (d : List (κ × β)), d.Pairwise (fun p q => p.1 ≠ q.1) → ∀ k v,
      (alookup d k = some v ↔ (k, v) ∈ d) := by
  intro d
  induction d with
  | nil => intro _ k v; simp [alookup]
  | cons p rest ih =>
    intro hpw k v
    rcases hpw with _ | ⟨hhd, htl⟩
    by_cases hk : (p.1 == k) = true
    · have hk' : p.1 = k := by simpa using hk
      rw [alookup, find?_cons_eq (fun q => q.1 == k) p rest, if_pos hk, Option.map_some']
      constructor
      · intro h
        have hv : p.2 = v := by
          injection h
        exact List.mem_cons.mpr (Or.inl (by rw [← hk', ← hv]))
      · intro hm
        rcases List.mem_cons.mp hm with he | hm'
        · rw [← he]
        · exact absurd (by rw [hk']) (fun hg => (hhd (k, v) hm') hg)
    · have hk' : ¬ p.1 = k := by simpa using hk
      rw [alookup, find?_cons_eq (fun q => q.1 == k) p rest, if_neg hk]
      have hiff := ih htl k v
      constructor
      · intro h
        exact List.mem_cons_of_mem p (hiff.mp h)
      · intro hm
        rcases List.mem_cons.mp hm with he | hm'
        · exact absurd (by rw [← he]) hk'
        · exact hiff.mpr hm'

theorem mem_map_swap {κ β : Type} (L : List (κ × β)) (k : κ) (v : β) :
    (k, v) ∈ L ↔ (v, k) ∈ L.map (fun p => (p.2, p.1)) := by
  constructor
  · intro h
    exact List.mem_map.mpr ⟨(k, v), h, rfl⟩
  · intro h
    obtain ⟨⟨p1, p2⟩, hp, he⟩ := List.mem_map.mp h
    injection he with h1 h2
    subst h1
    subst h2
    exact hp

/-- C2.  `_get_action_lookup` maps exactly the pysc2 functions with
`general_id == 0` whose id is not blocked to consecutive indices `0..N-1` in
enumeration order; the `action_space` exposes a `Discrete` of size `N` under
`action_id`; and `action_embed_lookup`/`action_id_lookup` are mutually
inverse.  (The hypothesis that the selected function ids are pairwise
distinct holds for pysc2's `_FUNCTIONS`, whose ids are unique.) -/
theorem c2_action_enumeration (fns : List SCFunction) (blocked : List Nat)
    (hids : (selectedFunctions fns blocked).Pairwise (fun f g => f.fid ≠ g.fid)) :
    getActionLookup fns blocked = lookupSpec (selectedFunctions fns blocked) 0
    ∧ (getActionLookup fns blocked).map Prod.fst
        = (selectedFunctions fns blocked).map SCFunction.fid
    ∧ (getActionLookup fns blocked).map Prod.snd
        = List.range (selectedFunctions fns blocked).length
    ∧ actionIdSpaceSize fns blocked = (selectedFunctions fns blocked).length
    ∧ (∀ fid idx, alookup (getActionLookup fns blocked) fid = some idx
        ↔ alookup (actionIdLookup fns blocked) idx = some fid) := by
  have h0 : getActionLookup fns blocked = lookupSpec (selectedFunctions fns blocked) 0 := by
    have := getActionLookupAux_eq blocked fns [] 0 hids (by intro f _ p hp; cases hp)
    simpa [getActionLookup] using this
  have hLpw : (lookupSpec (selectedFunctions fns blocked) 0).Pairwise
      (fun p q => p.1 ≠ q.1) := lookupSpec_pairwise_fst _ hids 0
  have hSpw : (lookupSpec (selectedFunctions fns blocked) 0).Pairwise
      (fun p q => p.2 ≠ q.2) := lookupSpec_pairwise_snd _ 0
  have hRpw : ((lookupSpec (selectedFunctions fns blocked) 0).map
      (fun p => (p.2, p.1))).Pairwise (fun p q => p.1 ≠ q.1) := by
    rw [List.pairwise_map]
    exact hSpw
  have hR : actionIdLookup fns blocked
      = (lookupSpec (selectedFunctions fns blocked) 0).map (fun p => (p.2, p.1)) := by
    rw [actionIdLookup, h0]
    exact dictOfPairs_distinct _ hRpw
  refine ⟨h0, by rw [h0]; exact lookupSpec_map_fst _ 0, ?_, ?_, ?_⟩
  · rw [h0, lookupSpec_map_snd]
    exact (List.range_eq_range' _).symm
  · rw [actionIdSpaceSize, h0, lookupSpec_length]
  · intro fid idx
    rw [h0, hR, alookup_eq_some_iff _ hLpw fid idx, alookup_eq_some_iff _ hRpw idx fid]
    exact mem_map_swap _ fid idx

/-- Witness for `c2_action_enumeration` on four functions of which the
general control-group function (id 4) is blocked and one function has a
nonzero `general_id`. -/
theorem c2_action_enumeration_witness :
    (selectedFunctions [⟨0, 0⟩, ⟨4, 0⟩, ⟨5, 1⟩, ⟨6, 0⟩] [4]).Pairwise
      (fun f g => f.fid ≠ g.fid)
    ∧ getActionLookup [⟨0, 0⟩, ⟨4, 0⟩, ⟨5, 1⟩, ⟨6, 0⟩] [4]
        = lookupSpec (selectedFunctions [⟨0, 0⟩, ⟨4, 0⟩, ⟨5, 1⟩, ⟨6, 0⟩] [4]) 0
    ∧ actionIdSpaceSize [⟨0, 0⟩, ⟨4, 0⟩, ⟨5, 1⟩, ⟨6, 0⟩] [4]
        = (selectedFunctions [⟨0, 0⟩, ⟨4, 0⟩, ⟨5, 1⟩, ⟨6, 0⟩] [4]).length
    ∧ (alookup (getActionLookup [⟨0, 0⟩, ⟨4, 0⟩, ⟨5, 1⟩, ⟨6, 0⟩] [4]) 6 = some 1
        ↔ alookup (actionIdLookup [⟨0, 0⟩, ⟨4, 0⟩, ⟨5, 1⟩, ⟨6, 0⟩] [4]) 1 = some 6) := by
  have hids : (selectedFunctions [⟨0, 0⟩, ⟨4, 0⟩, ⟨5, 1⟩, ⟨6, 0⟩] [4]).Pairwise
      (fun f g => f.fid ≠ g.fid) := by
    decide
  have h := c2_action_enumeration [⟨0, 0⟩, ⟨4, 0⟩, ⟨5, 1⟩, ⟨6, 0⟩] [4] hids
  exact ⟨hids, h.1, h.2.2.2.1, h.2.2.2.2 6 1⟩

/- ### C3: per-action argument keys and the FunctionCall rebuild -/

theorem alookup_actionArgLookup (fns : List SCFunction) (blocked : List Nat)
    (funcArgs : Nat → List Nat) (argSize : Nat → List Nat) (embedId : Nat) :
    alookup (actionArgLookup fns blocked funcArgs argSize) embedId
      = (alookup (actionIdLookup fns blocked) embedId).map
          (fun fid => ((funcArgs fid).map (getArgKeys argSize)).flatten) := by
  rw [actionArgLookup]
  generalize actionIdLookup fns blocked = L
  induction L with
  | nil => rfl
  | cons p rest ih =>
    simp only [List.map_cons, alookup, find?_cons_eq]
    by_cases hk : (p.1 == embedId) = true
    · rw [if_pos hk, if_pos hk]
      rfl
    · rw [if_neg hk, if_neg hk]
      exact ih

/-- C3.  For an embedded action index bound to the pysc2 function `fid`,
`action_arg_lookup` yields exactly the keys `arg_{arg_id}_{i}` of every
dimension `i` of every argument the function requires, in specification
order, and `Sc2.step` rebuilds the `FunctionCall` by reading precisely those
keys of the action dictionary, grouped per required argument in the same
order (so the flattened argument values are the action's values at exactly
the `action_arg_lookup` keys). -/
theorem c3_action_args (fns : List SCFunction) (blocked : List Nat)
    (funcArgs : Nat → List Nat) (argSize : Nat → List Nat)
    (action : String → Int) (embedId fid : Nat)
    (h : alookup (actionIdLookup fns blocked) embedId = some fid) :
    alookup (actionArgLookup fns blocked funcArgs argSize) embedId
      = some (((funcArgs fid).map (getArgKeys argSize)).flatten)
    ∧ sc2StepFunctionCall fns blocked funcArgs argSize action embedId
        = some (fid, (funcArgs fid).map (fun r => (getArgKeys argSize r).map action))
    ∧ ((funcArgs fid).map (fun r => (getArgKeys argSize r).map action)).flatten
        = (((funcArgs fid).map (getArgKeys argSize)).flatten).map action := by
  refine ⟨?_, ?_, ?_⟩
  · rw [alookup_actionArgLookup, h]
    rfl
  · simp only [sc2StepFunctionCall, h]
  · generalize (funcArgs fid) = L
    induction L with
    | nil => rfl
    | cons r rs ih =>
      simp only [List.map_cons, List.flatten_cons, List.map_append, ih]

/-- Witness for `c3_action_args`: two selected functions; the embedded index
1 maps to function 1, which requires argument 3 (two dimensions of size 5)
and argument 0 (one dimension of size 2). -/
theorem c3_action_args_witness :
    alookup (actionIdLookup [⟨0, 0⟩, ⟨1, 0⟩] []) 1 = some 1
    ∧ alookup (actionArgLookup [⟨0, 0⟩, ⟨1, 0⟩] []
          (fun fid => if fid == 1 then [3, 0] else [])
          (fun a => if a == 3 then [5, 5] else [2])) 1
        = some ["arg_3_0", "arg_3_1", "arg_0_0"]
    ∧ sc2StepFunctionCall [⟨0, 0⟩, ⟨1, 0⟩] []
          (fun fid => if fid == 1 then [3, 0] else [])
          (fun a => if a == 3 then [5, 5] else [2]) (fun _ => 7) 1
        = some (1, [[7, 7], [7]]) := by
  have h : alookup (actionIdLookup [⟨0, 0⟩, ⟨1, 0⟩] []) 1 = some 1 := by decide
  have hc := c3_action_args [⟨0, 0⟩, ⟨1, 0⟩] []
    (fun fid => if fid == 1 then [3, 0] else [])
    (fun a => if a == 3 then [5, 5] else [2]) (fun _ => 7) 1 1 h
  refine ⟨h, ?_, ?_⟩
  · rw [hc.1]
    decide
  · rw [hc.2.1]
    decide

/- ### C8: TimeLimit -/

theorem any_key_eq_false_iff (d : List (String × Val)) (k : String) :
    (d.any (fun q => q.1 == k)) = false ↔ alookup d k = none := by
  rw [alookup, Option.map_eq_none', List.find?_eq_none, List.any_eq_false]

theorem any_key_of_alookup_some (d : List (String × Val)) (k : String) (v : Val)
    (h : alookup d k = some v) : (d.any (fun q => q.1 == k)) = true := by
  by_contra hb
  rw [Bool.not_eq_true, any_key_eq_false_iff, h] at hb
  cases hb

/-- C8.  `TimeLimit.step` with counter `None` (before any reset, or after a
step that forced the episode end) fails its assertion; `reset` sets the
counter to 0; a successful inner step below the limit is passed through
unchanged with the counter incremented; exactly when the incremented counter
reaches `duration`, `done` is forced to `True`, `info['discount'] = 1.0` is
written only if the inner step supplied no `'discount'` key, and the counter
is cleared to `None`. -/
theorem c8_time_limit {S : Type} (env : Env S) (duration : Nat) :
    (∀ a s, (timeLimitEnv env duration).step a (s, none) = none)
    ∧ (∀ s c o s', env.reset s = some (o, s') →
        (timeLimitEnv env duration).reset (s, c) = some (o, (s', some 0)))
    ∧ (∀ a s c out s', env.step a s = some (out, s') → c + 1 < duration →
        (timeLimitEnv env duration).step a (s, some c) = some (out, (s', some (c + 1))))
    ∧ (∀ a s c out s', env.step a s = some (out, s') → c + 1 = duration →
        alookup out.info "discount" = none →
        (timeLimitEnv env duration).step a (s, some c)
          = some ({ out with
                    done := true
                    info := out.info ++ [("discount", Val.num 1)] }, (s', none)))
    ∧ (∀ a s c out s' v, env.step a s = some (out, s') → c + 1 = duration →
        alookup out.info "discount" = some v →
        (timeLimitEnv env duration).step a (s, some c)
          = some ({ out with done := true }, (s', none))) := by
  refine ⟨fun a s => rfl, ?_, ?_, ?_, ?_⟩
  · intro s c o s' h
    simp only [timeLimitEnv, h]
  · intro a s c out s' h hlt
    simp only [timeLimitEnv, h]
    rw [if_neg (by omega : ¬ duration ≤ c + 1)]
  · intro a s c out s' h heq hmiss
    have hany : (out.info.any (fun q => q.1 == "discount")) = false :=
      (any_key_eq_false_iff out.info "discount").mpr hmiss
    simp only [timeLimitEnv, h]
    rw [if_pos (by omega : duration ≤ c + 1)]
    rw [hany]
    simp only [Bool.false_eq_true, if_false, pyInsert, hany]
  · intro a s c out s' v h heq hsome
    have hany := any_key_of_alookup_some out.info "discount" v hsome
    simp only [timeLimitEnv, h]
    rw [if_pos (by omega : duration ≤ c + 1), hany]
    simp only [if_true]

/-- Witness for `c8_time_limit`: `TimeLimit(Dummy(), duration=1)` forces the
episode end on the first step after a reset. -/
theorem c8_time_limit_witness :
    dummyEnv.step [] () = some ({ obs := dummyObs, reward := 0, done := false, info := [] }, ())
    ∧ ((0 : Nat) + 1 = 1)
    ∧ alookup ([] : List (String × Val)) "discount" = none
    ∧ (timeLimitEnv dummyEnv 1).step [] ((), some 0)
        = some ({ obs := dummyObs, reward := 0, done := true,
                  info := [("discount", Val.num 1)] }, ((), none)) :=
  ⟨rfl, rfl, rfl, by
    have h := (c8_time_limit dummyEnv 1).2.2.2.1 [] () 0
      { obs := dummyObs, reward := 0, done := false, info := [] } () rfl rfl rfl
    simpa using h⟩

/- ### C10: NormalizeAction -/

/-- C10 counterexample.  One action dimension with original bounds
`[0, +inf)`: it is not finite-bounded, so the claim demands the advertised
`low` keep the original bound 0; the code advertises `-1` (the `np.where` in
`__init__` already replaced the bound, and the one in `action_space` keeps
that replacement). -/
theorem c10_advertised_bounds_cex :
    naSpaceLow [XQ.val 0] [XQ.posInf] = [-1]
    ∧ naSpaceLow [XQ.val 0] [XQ.posInf] ≠ [0] := by
  refine ⟨rfl, by simp [naSpaceLow, naMask, naLow, npWhere, XQ.isFinite]⟩

theorem naStep_eq_spec (low high : List XQ) (a : List ℚ)
    (hlh : low.length = high.length) (hal : a.length = low.length) :
    naStep low high a = naStepSpec low high a := by
  induction low generalizing high a with
  | nil =>
    cases high with
    | nil =>
      cases a with
      | nil => rfl
      | cons x xs => simp at hal
    | cons h hs => simp at hlh
  | cons l ls ih =>
    cases high with
    | nil => simp at hlh
    | cons h hs =>
      cases a with
      | nil => simp at hal
      | cons x xs =>
        simp only [List.length_cons, Nat.add_right_cancel_iff] at hlh hal
        have tail := ih hs xs hlh hal
        cases l <;> cases h <;>
          simp [naStep, naMask, naLow, naHigh, naOrig, npWhere, naStepSpec,
            XQ.isFinite, XQ.toQ] <;>
          exact tail

theorem naSpaceLow_eq (low high : List XQ) (hlh : low.length = high.length) :
    naSpaceLow low high = List.replicate low.length (-1) := by
  induction low generalizing high with
  | nil =>
    cases high with
    | nil => rfl
    | cons h hs => simp at hlh
  | cons l ls ih =>
    cases high with
    | nil => simp at hlh
    | cons h hs =>
      simp only [List.length_cons, Nat.add_right_cancel_iff] at hlh
      have tail := ih hs hlh
      by_cases hm : (l.isFinite && h.isFinite) = true <;>
        simp [naSpaceLow, naMask, naLow, npWhere, hm, List.replicate_succ] at tail ⊢ <;>
        simpa [naSpaceLow, naMask, naLow, npWhere, hm] using tail

theorem naSpaceHigh_eq (low high : List XQ) (hlh : low.length = high.length) :
    naSpaceHigh low high = List.replicate low.length 1 := by
  induction low generalizing high with
  | nil =>
    cases high with
    | nil => rfl
    | cons h hs => simp at hlh
  | cons l ls ih =>
    cases high with
    | nil => simp at hlh
    | cons h hs =>
      simp only [List.length_cons, Nat.add_right_cancel_iff] at hlh
      have tail := ih hs hlh
      cases l <;> cases h <;>
        simpa [naSpaceHigh, naMask, naLow, naHigh, npWhere, XQ.isFinite, XQ.toQ,
          List.replicate_succ] using tail

theorem naStep_neg_one (lq hq : List ℚ) (hlen : lq.length = hq.length) :
    naStep (lq.map XQ.val) (hq.map XQ.val) (List.replicate lq.length (-1)) = lq := by
  induction lq generalizing hq with
  | nil =>
    cases hq with
    | nil => rfl
    | cons h hs => simp at hlen
  | cons l ls ih =>
    cases hq with
    | nil => simp at hlen
    | cons h hs =>
      simp only [List.length_cons, Nat.add_right_cancel_iff] at hlen
      have tail := ih hs hlen
      have hhead : ((-1 : ℚ) + 1) / 2 * (h - l) + l = l := by ring
      simpa [naStep, naMask, naLow, naHigh, naOrig, npWhere, XQ.isFinite, XQ.toQ,
        List.replicate_succ, hhead] using tail

theorem naStep_one (lq hq : List ℚ) (hlen : lq.length = hq.length) :
    naStep (lq.map XQ.val) (hq.map XQ.val) (List.replicate lq.length 1) = hq := by
  induction lq generalizing hq with
  | nil =>
    cases hq with
    | nil => rfl
    | cons h hs => simp at hlen
  | cons l ls ih =>
    cases hq with
    | nil => simp at hlen
    | cons h hs =>
      simp only [List.length_cons, Nat.add_right_cancel_iff] at hlen
      have tail := ih hs hlen
      have hhead : ((1 : ℚ) + 1) / 2 * (h - l) + l = h := by ring
      simpa [naStep, naMask, naLow, naHigh, naOrig, npWhere, XQ.isFinite, XQ.toQ,
        List.replicate_succ, hhead] using tail

/-- C10 (amended).  `NormalizeAction.step` applies, on every dimension whose
original bounds are both finite, the affine map
`a ↦ (a + 1) / 2 * (high - low) + low` with the original bounds (so `-1`
maps to the original `low` and `+1` to the original `high`), and passes
dimensions with any infinite bound through unchanged; the advertised
`action_space`, however, has bounds `-1` and `1` on *every* dimension
(`__init__` already replaced the non-finite bounds by `-1`/`1`). -/
theorem c10_normalize_affine (low high : List XQ) (a lq hq : List ℚ)
    (hlh : low.length = high.length) (hal : a.length = low.length)
    (hlen : lq.length = hq.length) :
    naStep low high a = naStepSpec low high a
    ∧ naSpaceLow low high = List.replicate low.length (-1)
    ∧ naSpaceHigh low high = List.replicate low.length 1
    ∧ naStep (lq.map XQ.val) (hq.map XQ.val) (List.replicate lq.length (-1)) = lq
    ∧ naStep (lq.map XQ.val) (hq.map XQ.val) (List.replicate lq.length 1) = hq :=
  ⟨naStep_eq_spec low high a hlh hal, naSpaceLow_eq low high hlh,
   naSpaceHigh_eq low high hlh, naStep_neg_one lq hq hlen, naStep_one lq hq hlen⟩

/-- Witness for `c10_normalize_affine` on a two-dimensional space with one
finite-bounded and one infinite-bounded dimension. -/
theorem c10_normalize_affine_witness :
    ([XQ.val 0, XQ.negInf].length = [XQ.val 2, XQ.posInf].length)
    ∧ ([(1 : ℚ), 5].length = [XQ.val 0, XQ.negInf].length)
    ∧ ([(3 : ℚ)].length = [(7 : ℚ)].length)
    ∧ (naStep [XQ.val 0, XQ.negInf] [XQ.val 2, XQ.posInf] [1, 5]
        = naStepSpec [XQ.val 0, XQ.negInf] [XQ.val 2, XQ.posInf] [1, 5]
       ∧ naSpaceLow [XQ.val 0, XQ.negInf] [XQ.val 2, XQ.posInf]
        = List.replicate [XQ.val 0, XQ.negInf].length (-1)
       ∧ naSpaceHigh [XQ.val 0, XQ.negInf] [XQ.val 2, XQ.posInf]
        = List.replicate [XQ.val 0, XQ.negInf].length 1
       ∧ naStep ([(3 : ℚ)].map XQ.val) ([(7 : ℚ)].map XQ.val)
           (List.replicate [(3 : ℚ)].length (-1)) = [3]
       ∧ naStep ([(3 : ℚ)].map XQ.val) ([(7 : ℚ)].map XQ.val)
           (List.replicate [(3 : ℚ)].length 1) = [7]) :=
  ⟨rfl, rfl, rfl,
   c10_normalize_affine [XQ.val 0, XQ.negInf] [XQ.val 2, XQ.posInf] [1, 5] [3] [7]
     rfl rfl rfl⟩

/- ### C6: the uniform step/reset interface -/

theorem collectSc_isDict (cfg : Sc2Cfg) (ts : Sc2Timestep) (o : Val)
    (h : collectScObservation cfg ts = some o) : o.isDict = true := by
  simp only [collectScObservation] at h
  split at h
  · cases h
  · split at h
    · cases h
    · cases h
      rfl

/-- C6.  Every adapter and wrapper presents the same uniform interface:
whenever `step` succeeds it returns a `(obs, reward, done, info)` tuple whose
observation is a dictionary, and whenever `reset` succeeds it returns a
dictionary observation; the wrappers preserve this property of the wrapped
environment, and `NormalizeAction`, which defines no `reset` of its own,
delegates `reset` to the wrapped environment unchanged. -/
theorem c6_uniform_interface {Sd Sa Ss S : Type}
    (dsim : DmcSim Sd) (actionRepeat : Nat)
    (asim : AtariSim Sa) (grayscale : Bool)
    (cfg : Sc2Cfg) (ssim : Sc2Sim Ss)
    (env : Env S) (duration : Nat) (low high : List XQ) (key : String)
    (keys : List String)
    (h : uniformDict env) :
    uniformDict (dmcEnv dsim actionRepeat)
    ∧ uniformDict (atariEnv asim grayscale)
    ∧ uniformDict (sc2Env cfg ssim)
    ∧ uniformDict dummyEnv
    ∧ uniformDict (timeLimitEnv env duration)
    ∧ uniformDict (normalizeActionEnv env low high key)
    ∧ (normalizeActionEnv env low high key).reset = env.reset
    ∧ uniformDict (oneHotEnv env keys)
    ∧ uniformDict (rewardObsEnv env)
    ∧ uniformDict (resetObsEnv env) := by
  refine ⟨⟨?_, ?_⟩, ⟨?_, ?_⟩, ⟨?_, ?_⟩, ⟨?_, ?_⟩, ⟨?_, ?_⟩, ⟨?_, ?_⟩, rfl,
    ⟨?_, ?_⟩, ⟨?_, ?_⟩, ⟨?_, ?_⟩⟩
  · -- DMC.step
    intro a s r hr
    simp only [dmcEnv] at hr
    split at hr
    · cases hr
    · split at hr
      · cases hr
      · cases hr
        rfl
  · -- DMC.reset
    intro s r hr
    simp only [dmcEnv] at hr
    cases hr
    rfl
  · -- Atari.step
    intro a s r hr
    simp only [atariEnv] at hr
    split at hr
    · cases hr
    · cases hr
      rfl
  · -- Atari.reset
    intro s r hr
    simp only [atariEnv] at hr
    cases hr
    rfl
  · -- Sc2.step
    intro a s r hr
    simp only [sc2Env] at hr
    split at hr
    · cases hr
    · split at hr
      · cases hr
      · split at hr
        · cases hr
        · split at hr
          · cases hr
          · cases hr
            exact collectSc_isDict _ _ _ (by assumption)
  · -- Sc2.reset
    intro s r hr
    simp only [sc2Env] at hr
    split at hr
    · cases hr
    · cases hr
      exact collectSc_isDict _ _ _ (by assumption)
  · -- Dummy.step
    intro a s r hr
    cases hr
    rfl
  · -- Dummy.reset
    intro s r hr
    cases hr
    rfl
  · -- TimeLimit.step
    intro a p r hr
    obtain ⟨s, c⟩ := p
    simp only [timeLimitEnv] at hr
    cases c with
    | none => cases hr
    | some c =>
      rcases hstep : env.step a s with _ | ⟨out, s'⟩
      · simp only [hstep] at hr
        cases hr
      · simp only [hstep] at hr
        by_cases hd : duration ≤ c + 1
        · rw [if_pos hd] at hr
          cases hr
          exact h.1 a s (out, s') hstep
        · rw [if_neg hd] at hr
          cases hr
          exact h.1 a s (out, s') hstep
  · -- TimeLimit.reset
    intro p r hr
    obtain ⟨s, c⟩ := p
    simp only [timeLimitEnv] at hr
    rcases hre : env.reset s with _ | ⟨o, s'⟩
    · rw [hre] at hr
      cases hr
    · rw [hre] at hr
      cases hr
      exact h.2 s (o, s') hre
  · -- NormalizeAction.step
    intro a s r hr
    simp only [normalizeActionEnv] at hr
    split at hr
    · cases hr
    · split at hr
      · cases hr
      · exact h.1 _ s r hr
  · -- NormalizeAction.reset (delegated)
    intro s r hr
    exact h.2 s r hr
  · -- OneHotAction.step
    intro a s r hr
    simp only [oneHotEnv] at hr
    split at hr
    · cases hr
    · exact h.1 _ s r hr
  · -- OneHotAction.reset (delegates explicitly)
    intro s r hr
    exact h.2 s r hr
  · -- RewardObs.step
    intro a s r hr
    simp only [rewardObsEnv] at hr
    split at hr
    · cases hr
    · split at hr
      · cases hr
        rfl
      · cases hr
  · -- RewardObs.reset
    intro s r hr
    simp only [rewardObsEnv] at hr
    split at hr
    · cases hr
    · split at hr
      · cases hr
        rfl
      · cases hr
  · -- ResetObs.step
    intro a s r hr
    simp only [resetObsEnv] at hr
    split at hr
    · cases hr
    · split at hr
      · cases hr
        rfl
      · cases hr
  · -- ResetObs.reset
    intro s r hr
    simp only [resetObsEnv] at hr
    split at hr
    · cases hr
    · split at hr
      · cases hr
        rfl
      · cases hr

/-- Witness for `c6_uniform_interface` over the trivial simulators and the
`Dummy` environment. -/
theorem c6_uniform_interface_witness :
    uniformDict dummyEnv
    ∧ uniformDict (dmcEnv trivDmcSim 1)
    ∧ uniformDict (timeLimitEnv dummyEnv 5)
    ∧ (normalizeActionEnv dummyEnv [] [] "action").reset = dummyEnv.reset := by
  have h : uniformDict dummyEnv :=
    ⟨fun a s r hr => by cases hr; rfl, fun s r hr => by cases hr; rfl⟩
  have hc := c6_uniform_interface trivDmcSim 1 trivAtariSim true trivSc2Cfg trivSc2Sim
    dummyEnv 5 [] [] "action" [] h
  exact ⟨h, hc.1, hc.2.2.2.2.1, hc.2.2.2.2.2.2.1⟩

/- ### C4: fixed-size pooling output shape -/

theorem matVec_length {K : Type} [LinearOrderedField K] (w : List (List K)) (x : List K) :
    (matVec w x).length = w.length :=
  List.length_map _ _

theorem denseNB_length {K : Type} [LinearOrderedField K] (w x : List (List K)) :
    (denseNB w x).length = x.length :=
  List.length_map _ _

theorem denseNB_row_length {K : Type} [LinearOrderedField K] (w x : List (List K)) :
    ∀ r ∈ denseNB w x, r.length = w.length := by
  intro r hr
  obtain ⟨x0, _, rfl⟩ := List.mem_map.mp hr
  exact matVec_length w x0

theorem denseB_length {K : Type} [LinearOrderedField K] (w : List (List K)) (b : List K)
    (x : List (List K)) : (denseB w b x).length = x.length :=
  List.length_map _ _

theorem denseB_row_length {K : Type} [LinearOrderedField K] (w : List (List K)) (b : List K)
    (x : List (List K)) (d : Nat) (hw : w.length = d) (hb : b.length = d) :
    ∀ r ∈ denseB w b x, r.length = d := by
  intro r hr
  obtain ⟨x0, _, rfl⟩ := List.mem_map.mp hr
  simp [List.length_zipWith, matVec_length, hw, hb]

theorem headSlice_length {K : Type} (depth hIdx H : Nat) (r : List K)
    (hr : r.length = H * depth) (hh : hIdx < H) :
    (headSlice depth hIdx r).length = depth := by
  have h1 : hIdx * depth + depth ≤ H * depth := by
    have h2 : (hIdx + 1) * depth ≤ H * depth := Nat.mul_le_mul_right depth hh
    simpa [Nat.succ_mul] using h2
  simp only [headSlice, List.length_take, List.length_drop, hr]
  omega

theorem splitHeads_length {K : Type} (numHeads depth : Nat) (x : List (List K)) :
    (splitHeads numHeads depth x).length = numHeads := by
  simp [splitHeads]

theorem splitHeads_mem {K : Type} (numHeads depth : Nat) (x : List (List K))
    (hd : List (List K)) (h : hd ∈ splitHeads numHeads depth x) :
    ∃ hi, hi < numHeads ∧ hd = x.map (headSlice depth hi) := by
  obtain ⟨hi, hhi, rfl⟩ := List.mem_map.mp h
  exact ⟨hi, List.mem_range.mp hhi, rfl⟩

theorem mem_zipWith {α β γ : Type} (f : α → β → γ) :
    ∀ (xs : List α) (ys : List β) (z : γ), z ∈ List.zipWith f xs ys →
      ∃ a ∈ xs, ∃ b ∈ ys, z = f a b := by
  intro xs
  induction xs with
  | nil => intro ys z hz; cases hz
  | cons x xt ih =>
    intro ys z hz
    cases ys with
    | nil => cases hz
    | cons y yt =>
      rcases List.mem_cons.mp hz with h | h
      · exact ⟨x, by simp, y, by simp, h⟩
      · obtain ⟨a, ha, b, hb, he⟩ := ih yt z h
        exact ⟨a, by simp [ha], b, by simp [hb], he⟩

theorem addPad_nil {K : Type} [LinearOrderedField K] (x : List K) : addPad x [] = x := by
  cases x <;> rfl

theorem addPad_length {K : Type} [LinearOrderedField K] :
    ∀ (x y : List K), (addPad x y).length = max x.length y.length := by
  intro x
  induction x with
  | nil => intro y; simp [addPad]
  | cons a as ih =>
    intro y
    cases y with
    | nil => simp [addPad_nil]
    | cons b bs => simp [addPad, ih bs]; omega

theorem vecSum_length {K : Type} [LinearOrderedField K] :
    ∀ (rows : List (List K)) (d : Nat), rows ≠ [] → (∀ r ∈ rows, r.length = d) →
      (vecSum rows).length = d := by
  intro rows
  induction rows with
  | nil => intro d hne _; exact absurd rfl hne
  | cons r rest ih =>
    intro d _ hrow
    cases rest with
    | nil =>
      show (addPad r (vecSum [])).length = d
      rw [show vecSum ([] : List (List K)) = [] from rfl, addPad_nil]
      exact hrow r (by simp)
    | cons c cs =>
      show (addPad r (vecSum (c :: cs))).length = d
      rw [addPad_length]
      rw [hrow r (by simp), ih d (by simp) (fun q hq => hrow q (by simp [hq]))]
      omega

theorem softmaxRow_length {K : Type} [LinearOrderedField K] (ex : K → K) (r : List K) :
    (softmaxRow ex r).length = r.length := by
  simp [softmaxRow]

theorem attnRow_length {K : Type} [LinearOrderedField K] (w : List K) (vs : List (List K))
    (n depth : Nat) (hn : 1 ≤ n) (hw : w.length = n) (hvs : vs.length = n)
    (hvrow : ∀ v ∈ vs, v.length = depth) : (attnRow w vs).length = depth := by
  rw [attnRow]
  apply vecSum_length
  · have : (List.zipWith (fun a r => r.map (fun x => a * x)) w vs).length = n := by
      simp [List.length_zipWith, hw, hvs]
    intro hnil
    rw [hnil] at this
    simp at this
    omega
  · intro r hr
    obtain ⟨a, _, b, hb, rfl⟩ := mem_zipWith _ w vs r hr
    simp [hvrow b hb]

theorem sdpa_length {K : Type} [LinearOrderedField K] (ex sq : K → K) (dk : Nat)
    (q ks vs : List (List K)) (mask : Option (List K)) :
    (sdpa ex sq dk q ks vs mask).length = q.length := by
  simp [sdpa]

theorem sdpa_row_length {K : Type} [LinearOrderedField K] (ex sq : K → K) (dk : Nat)
    (q ks vs : List (List K)) (mask : Option (List K)) (n depth : Nat)
    (hn : 1 ≤ n) (hks : ks.length = n) (hvs : vs.length = n)
    (hvrow : ∀ v ∈ vs, v.length = depth)
    (hm : ∀ m, mask = some m → m.length = n) :
    ∀ r ∈ sdpa ex sq dk q ks vs mask, r.length = depth := by
  intro r hr
  obtain ⟨qr, _, rfl⟩ := List.mem_map.mp hr
  have hmasked : (match mask with
      | none => ks.map (fun kr => dotK qr kr / sq ((dk : Nat) : K))
      | some m => List.zipWith (fun l mv => l + mv * (-(1000000000 : K)))
          (ks.map (fun kr => dotK qr kr / sq ((dk : Nat) : K))) m).length = n := by
    cases mask with
    | none => simp [hks]
    | some m => simp [List.length_zipWith, hks, hm m rfl]
  exact attnRow_length _ vs n depth hn (by rw [softmaxRow_length]; exact hmasked) hvs hvrow

theorem combineHeads_length {K : Type} (heads : List (List (List K))) (n : Nat)
    (hne : heads ≠ []) (hhead : ∀ hd ∈ heads, hd.length = n) :
    (combineHeads heads).length = n := by
  cases heads with
  | nil => exact absurd rfl hne
  | cons h0 rest =>
    simp [combineHeads, hhead h0 (by simp)]

theorem combineHeads_row_length {K : Type} (heads : List (List (List K))) (H n depth : Nat)
    (hH : heads.length = H)
    (hhead : ∀ hd ∈ heads, hd.length = n ∧ ∀ r ∈ hd, r.length = depth) :
    ∀ r ∈ combineHeads heads, r.length = H * depth := by
  intro r hr
  cases heads with
  | nil => cases hr
  | cons h0 rest =>
    obtain ⟨i, hi, rfl⟩ := List.mem_map.mp hr
    have hi' : i < n := by
      rw [← (hhead h0 (by simp)).1]
      exact List.mem_range.mp hi
    rw [List.length_flatten]
    have hall : ((h0 :: rest).map (fun hd => hd.getD i [])).map List.length
        = List.replicate H depth := by
      apply List.eq_replicate_iff.mpr
      constructor
      · simpa using hH
      · intro b hb
        simp only [List.map_map, List.mem_map] at hb
        obtain ⟨hd, hhd, rfl⟩ := hb
        obtain ⟨hlen, hrows⟩ := hhead hd hhd
        have hilt : i < hd.length := by rw [hlen]; exact hi'
        simp only [Function.comp]
        rw [List.getD_eq_getElem _ _ hilt]
        exact hrows _ (List.getElem_mem hilt)
    rw [hall, List.sum_replicate, smul_eq_mul]

theorem layerNormRow_length {K : Type} [LinearOrderedField K] (sq : K → K) (g be r : List K)
    (d : Nat) (hg : g.length = d) (hbe : be.length = d) (hr : r.length = d) :
    (layerNormRow sq g be r).length = d := by
  simp [layerNormRow, List.length_zipWith, hg, hbe, hr]

theorem matAdd_length {K : Type} [LinearOrderedField K] (x y : List (List K)) :
    (matAdd x y).length = min x.length y.length := by
  simp [matAdd, List.length_zipWith]

theorem matAdd_row_length {K : Type} [LinearOrderedField K] (x y : List (List K)) (d : Nat)
    (hx : ∀ r ∈ x, r.length = d) (hy : ∀ r ∈ y, r.length = d) :
    ∀ r ∈ matAdd x y, r.length = d := by
  intro r hr
  obtain ⟨a, ha, b, hb, rfl⟩ := mem_zipWith _ x y r hr
  simp [List.length_zipWith, hx a ha, hy b hb]

theorem zipWith3K_length {α β γ δ : Type} (f : α → β → γ → δ) :
    ∀ (as : List α) (bs : List β) (cs : List γ),
      (zipWith3K f as bs cs).length = min as.length (min bs.length cs.length) := by
  intro as
  induction as with
  | nil => intro bs cs; simp [zipWith3K]
  | cons a at' ih =>
    intro bs cs
    cases bs with
    | nil => simp [zipWith3K]
    | cons b bt =>
      cases cs with
      | nil => simp [zipWith3K]
      | cons c ct =>
        simp [zipWith3K, ih bt ct]
        omega

theorem mem_zipWith3K {α β γ δ : Type} (f : α → β → γ → δ) :
    ∀ (as : List α) (bs : List β) (cs : List γ) (z : δ), z ∈ zipWith3K f as bs cs →
      ∃ a ∈ as, ∃ b ∈ bs, ∃ c ∈ cs, z = f a b c := by
  intro as
  induction as with
  | nil => intro bs cs z hz; cases hz
  | cons a at' ih =>
    intro bs cs z hz
    cases bs with
    | nil => cases hz
    | cons b bt =>
      cases cs with
      | nil => cases hz
      | cons c ct =>
        rcases List.mem_cons.mp hz with h | h
        · exact ⟨a, by simp, b, by simp, c, by simp, h⟩
        · obtain ⟨a0, ha, b0, hb, c0, hc, he⟩ := ih bt ct z h
          exact ⟨a0, by simp [ha], b0, by simp [hb], c0, by simp [hc], he⟩

theorem splitHeads_mem_length {K : Type} (numHeads depth : Nat) (y : List (List K)) :
    ∀ hd ∈ splitHeads numHeads depth y, hd.length = y.length := by
  intro hd h
  obtain ⟨hi, _, rfl⟩ := splitHeads_mem numHeads depth y hd h
  simp

theorem mhaCall_shape {K : Type} [LinearOrderedField K] (ex sq : K → K) (W : MHAWeights K)
    (q k v : List (List K)) (mask : Option (List K)) (dModel : Nat)
    (hwo : W.wo.length = dModel) (h1 : 1 ≤ W.numHeads) :
    (mhaCall ex sq W q k v mask).length = q.length
    ∧ ∀ r ∈ mhaCall ex sq W q k v mask, r.length = dModel := by
  have hattn_mem : ∀ z ∈ zipWith3K
      (fun qi ki vi => sdpa ex sq W.depth qi ki vi mask)
      (splitHeads W.numHeads W.depth (denseNB W.wq q))
      (splitHeads W.numHeads W.depth (denseNB W.wk k))
      (splitHeads W.numHeads W.depth (denseNB W.wv v)), z.length = q.length := by
    intro z hz
    obtain ⟨qi, hqi, ki, _, vi, _, rfl⟩ := mem_zipWith3K _ _ _ _ z hz
    rw [sdpa_length, splitHeads_mem_length _ _ _ qi hqi, denseNB_length]
  have hattn_len : (zipWith3K
      (fun qi ki vi => sdpa ex sq W.depth qi ki vi mask)
      (splitHeads W.numHeads W.depth (denseNB W.wq q))
      (splitHeads W.numHeads W.depth (denseNB W.wk k))
      (splitHeads W.numHeads W.depth (denseNB W.wv v))).length = W.numHeads := by
    rw [zipWith3K_length]
    simp [splitHeads_length]
  constructor
  · rw [mhaCall, denseNB_length]
    apply combineHeads_length _ q.length _ hattn_mem
    intro hnil
    rw [hnil] at hattn_len
    simp at hattn_len
    omega
  · intro r hr
    rw [mhaCall] at hr
    rw [denseNB_row_length _ _ r hr]
    exact hwo

theorem ffnCall_row_length {K : Type} [LinearOrderedField K] (F : FFNWeights K)
    (x : List (List K)) (d : Nat) (hw2 : F.w2.length = d) (hb2 : F.b2.length = d) :
    ∀ r ∈ ffnCall F x, r.length = d := by
  intro r hr
  exact denseB_row_length _ _ _ d hw2 hb2 r hr

theorem ffnCall_length {K : Type} [LinearOrderedField K] (F : FFNWeights K)
    (x : List (List K)) : (ffnCall F x).length = x.length := by
  simp [ffnCall, denseB_length]

theorem tlCall_shape {K : Type} [LinearOrderedField K] (ex sq : K → K) (T : TLWeights K)
    (x y : List (List K)) (mask : Option (List K)) (dModel : Nat)
    (hxrow : ∀ r ∈ x, r.length = dModel)
    (hwo : T.mha.wo.length = dModel) (h1 : 1 ≤ T.mha.numHeads)
    (hw2 : T.ffn.w2.length = dModel) (hb2 : T.ffn.b2.length = dModel)
    (hg1 : T.g1.length = dModel) (hbe1 : T.be1.length = dModel)
    (hg2 : T.g2.length = dModel) (hbe2 : T.be2.length = dModel) :
    (tlCall ex sq T x y mask).length = x.length
    ∧ ∀ r ∈ tlCall ex sq T x y mask, r.length = dModel := by
  obtain ⟨hmlen, hmrow⟩ := mhaCall_shape ex sq T.mha x y y mask dModel hwo h1
  have hout1_len : ((matAdd x (mhaCall ex sq T.mha x y y mask)).map
      (layerNormRow sq T.g1 T.be1)).length = x.length := by
    rw [List.length_map, matAdd_length, hmlen]
    omega
  have hout1_row : ∀ r ∈ (matAdd x (mhaCall ex sq T.mha x y y mask)).map
      (layerNormRow sq T.g1 T.be1), r.length = dModel := by
    intro r hr
    obtain ⟨r0, hr0, rfl⟩ := List.mem_map.mp hr
    exact layerNormRow_length sq _ _ _ dModel hg1 hbe1
      (matAdd_row_length _ _ dModel hxrow hmrow r0 hr0)
  constructor
  · rw [tlCall, List.length_map, matAdd_length, ffnCall_length, hout1_len]
    omega
  · intro r hr
    rw [tlCall] at hr
    obtain ⟨r0, hr0, rfl⟩ := List.mem_map.mp hr
    exact layerNormRow_length sq _ _ _ dModel hg2 hbe2
      (matAdd_row_length _ _ dModel hout1_row
        (ffnCall_row_length T.ffn _ dModel hw2 hb2) r0 hr0)

/-- C4.  For every batch `xs` of `b` set inputs, each with `n ≥ 1` entity
rows, and any padding mask over the `n` key positions,
`PoolingMultiheadAttention.call` returns a tensor of shape
`(b, num_seed_vectors, d_model)`: the shape is determined by the seed
vectors and the layer widths alone and is independent of the set size `n`. -/
theorem c4_pma_shape {K : Type} [LinearOrderedField K] (ex sq : K → K) (P : PMAWeights K)
    (xs : List (List (List K))) (mask : Option (List K)) (b n numSeeds dModel : Nat)
    (hxs : xs.length = b) (hx : ∀ x ∈ xs, x.length = n) (hn : 1 ≤ n)
    (hm : ∀ m, mask = some m → m.length = n)
    (hseedlen : P.seed.length = numSeeds)
    (hseedrow : ∀ r ∈ P.seed, r.length = dModel)
    (hwo : P.mab.mha.wo.length = dModel) (h1 : 1 ≤ P.mab.mha.numHeads)
    (hw2 : P.mab.ffn.w2.length = dModel) (hb2 : P.mab.ffn.b2.length = dModel)
    (hg1 : P.mab.g1.length = dModel) (hbe1 : P.mab.be1.length = dModel)
    (hg2 : P.mab.g2.length = dModel) (hbe2 : P.mab.be2.length = dModel) :
    (pmaCall ex sq P xs mask).length = b
    ∧ (pmaCall ex sq P xs mask).map (fun o => o.map List.length)
        = List.replicate b (List.replicate numSeeds dModel) := by
  constructor
  · rw [pmaCall, List.length_map, hxs]
  · apply List.eq_replicate_iff.mpr
    constructor
    · rw [List.length_map, pmaCall, List.length_map, hxs]
    · intro o ho
      obtain ⟨o0, ho0, rfl⟩ := List.mem_map.mp ho
      obtain ⟨x, hxmem, rfl⟩ := List.mem_map.mp ho0
      obtain ⟨hlen, hrow⟩ := tlCall_shape ex sq P.mab P.seed x mask dModel hseedrow
        hwo h1 hw2 hb2 hg1 hbe1 hg2 hbe2
      apply List.eq_replicate_iff.mpr
      constructor
      · rw [List.length_map, hlen, hseedlen]
      · intro l hl
        obtain ⟨r, hrmem, rfl⟩ := List.mem_map.mp hl
        exact hrow r hrmem

/-- Witness for `c4_pma_shape`: a batch of one set with two entity rows,
pooled by the one-seed, width-1 demo weights, with no mask. -/
theorem c4_pma_shape_witness :
    ([[[(2 : ℚ)], [3]]].length = 1)
    ∧ (∀ x ∈ [[[(2 : ℚ)], [3]]], x.length = 2)
    ∧ (1 ≤ 2)
    ∧ demoPMA.seed.length = 1
    ∧ (pmaCall (fun x => x) (fun x => x) demoPMA [[[(2 : ℚ)], [3]]] none).length = 1
    ∧ (pmaCall (fun x => x) (fun x => x) demoPMA [[[(2 : ℚ)], [3]]] none).map
        (fun o => o.map List.length) = List.replicate 1 (List.replicate 1 1) := by
  have hc := c4_pma_shape (fun x : ℚ => x) (fun x => x) demoPMA [[[(2 : ℚ)], [3]]] none
    1 2 1 1 rfl (by intro x hx; simp at hx; rw [hx]; rfl) (by omega)
    (by intro m hm; cases hm) rfl
    (by intro r hr; simp [demoPMA, demoTL] at hr; rw [hr]; rfl)
    rfl (by simp [demoPMA, demoTL, demoMHA]) rfl rfl rfl rfl rfl rfl
  exact ⟨rfl, by intro x hx; simp at hx; rw [hx]; rfl, by omega, rfl, hc.1, hc.2⟩

/- ### C5: permutation invariance of the pooling attention -/

theorem map_congr_mem {α β : Type} (f g : α → β) :
    ∀ (l : List α), (∀ a ∈ l, f a = g a) → l.map f = l.map g := by
  intro l
  induction l with
  | nil => intro _; rfl
  | cons a t ih =>
    intro h
    simp only [List.map_cons]
    rw [h a (by simp), ih (fun b hb => h b (by simp [hb]))]

theorem getD_map_of_lt {α β : Type} (f : α → β) (l : List α) (i : Nat) (d : α) (d' : β)
    (h : i < l.length) : (l.map f).getD i d' = f (l.getD i d) := by
  rw [List.getD_eq_getElem _ _ (by simpa using h), List.getD_eq_getElem _ _ h,
    List.getElem_map]

theorem map_applyPerm {α β : Type} (f : α → β) (d : α) (d' : β) (p : List Nat)
    (l : List α) (h : ∀ i ∈ p, i < l.length) :
    (applyPerm d p l).map f = applyPerm d' p (l.map f) := by
  induction p with
  | nil => rfl
  | cons i ps ih =>
    simp only [applyPerm, List.map_cons] at ih ⊢
    rw [getD_map_of_lt f l i d d' (h i (by simp))]
    rw [ih (fun j hj => h j (by simp [hj]))]

theorem zipWith_map_same {α β γ δ : Type} (f : β → γ → δ) (g : α → β) (h : α → γ) :
    ∀ l : List α, List.zipWith f (l.map g) (l.map h) = l.map (fun x => f (g x) (h x)) := by
  intro l
  induction l with
  | nil => rfl
  | cons a t ih => simp only [List.map_cons, List.zipWith_cons_cons, ih]

theorem getD_zipWith {α β γ : Type} (f : α → β → γ) :
    ∀ (xs : List α) (ys : List β) (i : Nat) (da : α) (db : β) (dc : γ),
      i < xs.length → i < ys.length →
      (List.zipWith f xs ys).getD i dc = f (xs.getD i da) (ys.getD i db) := by
  intro xs
  induction xs with
  | nil => intro ys i da db dc hx _; simp at hx
  | cons x xt ih =>
    intro ys i da db dc hx hy
    cases ys with
    | nil => simp at hy
    | cons y yt =>
      cases i with
      | zero => rfl
      | succ j =>
        simp only [List.zipWith_cons_cons, List.getD_cons_succ]
        exact ih yt j da db dc (by simpa using hx) (by simpa using hy)

theorem zipWith_applyPerm {α β γ : Type} (f : α → β → γ) (da : α) (db : β) (dc : γ)
    (p : List Nat) (xs : List α) (ys : List β)
    (hx : ∀ i ∈ p, i < xs.length) (hy : ∀ i ∈ p, i < ys.length) :
    List.zipWith f (applyPerm da p xs) (applyPerm db p ys)
      = applyPerm dc p (List.zipWith f xs ys) := by
  simp only [applyPerm]
  rw [zipWith_map_same]
  apply map_congr_mem
  intro i hi
  exact (getD_zipWith f xs ys i da db dc (hx i hi) (hy i hi)).symm

theorem range_map_getD {α : Type} (d : α) :
    ∀ (l : List α), (List.range l.length).map (fun i => l.getD i d) = l := by
  intro l
  induction l with
  | nil => rfl
  | cons a t ih =>
    rw [List.length_cons, List.range_succ_eq_map, List.map_cons, List.map_map]
    have hcomp : ((fun i => (a :: t).getD i d) ∘ Nat.succ) = fun i => t.getD i d := rfl
    rw [hcomp]
    rw [List.getD_cons_zero, ih]

theorem applyPerm_perm {α : Type} (d : α) (p : List Nat) (l : List α) (n : Nat)
    (hp : p.Perm (List.range n)) (hl : l.length = n) : (applyPerm d p l).Perm l := by
  have h2 : (p.map (fun i => l.getD i d)).Perm
      ((List.range n).map (fun i => l.getD i d)) := hp.map _
  rw [← hl, range_map_getD] at h2
  exact h2

theorem mem_perm_lt (p : List Nat) (n : Nat) (hp : p.Perm (List.range n)) :
    ∀ i ∈ p, i < n := by
  intro i hi
  exact List.mem_range.mp (hp.mem_iff.mp hi)

theorem softmaxRow_applyPerm {K : Type} [LinearOrderedField K] (ex : K → K) (p : List Nat)
    (r : List K) (n : Nat) (hp : p.Perm (List.range n)) (hr : r.length = n) :
    softmaxRow ex (applyPerm 0 p r) = applyPerm 0 p (softmaxRow ex r) := by
  have hlt : ∀ i ∈ p, i < r.length := by
    rw [hr]; exact mem_perm_lt p n hp
  simp only [softmaxRow]
  rw [map_applyPerm ex 0 0 p r hlt]
  have hsum : (applyPerm (0 : K) p (r.map ex)).sum = (r.map ex).sum :=
    (applyPerm_perm 0 p (r.map ex) n hp (by simp [hr])).sum_eq
  rw [hsum]
  exact map_applyPerm _ 0 0 p (r.map ex) (by simpa using hlt)

theorem addPad_comm {K : Type} [LinearOrderedField K] :
    ∀ (x y : List K), addPad x y = addPad y x := by
  intro x
  induction x with
  | nil =>
    intro y
    rw [addPad_nil]
    rfl
  | cons a as ih =>
    intro y
    cases y with
    | nil =>
      rw [addPad_nil]
      rfl
    | cons b bs =>
      show (a + b) :: addPad as bs = (b + a) :: addPad bs as
      rw [add_comm, ih bs]

theorem addPad_left_comm {K : Type} [LinearOrderedField K] :
    ∀ (x y z : List K), addPad x (addPad y z) = addPad y (addPad x z) := by
  intro x
  induction x with
  | nil => intro y z; rfl
  | cons a as ih =>
    intro y z
    cases y with
    | nil => rfl
    | cons b bs =>
      cases z with
      | nil =>
        rw [addPad_nil, addPad_nil]
        show (a + b) :: addPad as bs = (b + a) :: addPad bs as
        rw [add_comm, addPad_comm as bs]
      | cons c cs =>
        show (a + (b + c)) :: addPad as (addPad bs cs)
          = (b + (a + c)) :: addPad bs (addPad as cs)
        rw [add_left_comm, ih bs cs]

theorem foldr_addPad_perm {K : Type} [LinearOrderedField K] {l1 l2 : List (List K)}
    (h : l1.Perm l2) : ∀ init, l1.foldr addPad init = l2.foldr addPad init := by
  induction h with
  | nil => intro init; rfl
  | cons x _ ih =>
    intro init
    simp only [List.foldr_cons]
    rw [ih init]
  | swap x y l =>
    intro init
    simp only [List.foldr_cons]
    exact addPad_left_comm y x (l.foldr addPad init)
  | trans _ _ ih1 ih2 =>
    intro init
    rw [ih1 init, ih2 init]

theorem vecSum_applyPerm {K : Type} [LinearOrderedField K] (p : List Nat)
    (rows : List (List K)) (n : Nat) (hp : p.Perm (List.range n))
    (hrows : rows.length = n) : vecSum (applyPerm [] p rows) = vecSum rows :=
  foldr_addPad_perm (applyPerm_perm [] p rows n hp hrows) []

theorem attnRow_applyPerm {K : Type} [LinearOrderedField K] (p : List Nat) (w : List K)
    (vs : List (List K)) (n : Nat) (hp : p.Perm (List.range n))
    (hw : w.length = n) (hvs : vs.length = n) :
    attnRow (applyPerm 0 p w) (applyPerm [] p vs) = attnRow w vs := by
  simp only [attnRow]
  rw [zipWith_applyPerm _ 0 [] [] p w vs
    (by rw [hw]; exact mem_perm_lt p n hp) (by rw [hvs]; exact mem_perm_lt p n hp)]
  exact vecSum_applyPerm p _ n hp (by simp [List.length_zipWith, hw, hvs])

theorem sdpa_applyPerm {K : Type} [LinearOrderedField K] (ex sq : K → K) (dk : Nat)
    (q ks vs : List (List K)) (mask : Option (List K)) (n : Nat) (p : List Nat)
    (hp : p.Perm (List.range n)) (hks : ks.length = n) (hvs : vs.length = n)
    (hm : ∀ m, mask = some m → m.length = n) :
    sdpa ex sq dk q (applyPerm [] p ks) (applyPerm [] p vs) (mask.map (applyPerm 0 p))
      = sdpa ex sq dk q ks vs mask := by
  simp only [sdpa]
  apply map_congr_mem
  intro qr _
  have hltk : ∀ i ∈ p, i < ks.length := by
    rw [hks]; exact mem_perm_lt p n hp
  have hlog : (applyPerm [] p ks).map (fun kr => dotK qr kr / sq ((dk : Nat) : K))
      = applyPerm 0 p (ks.map (fun kr => dotK qr kr / sq ((dk : Nat) : K))) :=
    map_applyPerm _ [] 0 p ks hltk
  cases mask with
  | none =>
    simp only [Option.map_none']
    rw [hlog,
      softmaxRow_applyPerm ex p _ n hp (by simp [hks]),
      attnRow_applyPerm p _ vs n hp (by simp [softmaxRow_length, hks]) hvs]
  | some m =>
    simp only [Option.map_some']
    rw [hlog,
      zipWith_applyPerm (fun l mv => l + mv * (-(1000000000 : K))) 0 0 0 p _ m
        (by simp [hks]; exact mem_perm_lt p n hp)
        (by rw [hm m rfl]; exact mem_perm_lt p n hp),
      softmaxRow_applyPerm ex p _ n hp
        (by simp [List.length_zipWith, hks, hm m rfl]),
      attnRow_applyPerm p _ vs n hp
        (by simp [softmaxRow_length, List.length_zipWith, hks, hm m rfl]) hvs]

theorem denseNB_applyPerm {K : Type} [LinearOrderedField K] (w : List (List K))
    (p : List Nat) (x : List (List K)) (h : ∀ i ∈ p, i < x.length) :
    denseNB w (applyPerm [] p x) = applyPerm [] p (denseNB w x) := by
  simp only [denseNB]
  exact map_applyPerm (matVec w) [] [] p x h

theorem splitHeads_applyPerm {K : Type} (numHeads depth : Nat) (p : List Nat)
    (y : List (List K)) (h : ∀ i ∈ p, i < y.length) :
    splitHeads numHeads depth (applyPerm [] p y)
      = (splitHeads numHeads depth y).map (applyPerm [] p) := by
  simp only [splitHeads, List.map_map]
  apply map_congr_mem
  intro hi _
  exact map_applyPerm (headSlice depth hi) [] [] p y h

theorem zipWith3K_map23 {α β γ δ : Type} (f : α → β → γ → δ) (g : β → β) (h : γ → γ) :
    ∀ (as : List α) (bs : List β) (cs : List γ),
      zipWith3K f as (bs.map g) (cs.map h)
        = zipWith3K (fun a b c => f a (g b) (h c)) as bs cs := by
  intro as
  induction as with
  | nil => intro bs cs; rfl
  | cons a at' ih =>
    intro bs cs
    cases bs with
    | nil => rfl
    | cons b bt =>
      cases cs with
      | nil => rfl
      | cons c ct =>
        simp only [List.map_cons]
        show f a (g b) (h c) :: zipWith3K f at' (bt.map g) (ct.map h) = _
        rw [ih bt ct]
        rfl

theorem zipWith3K_congr23 {α β γ δ : Type} (F G : α → β → γ → δ) :
    ∀ (as : List α) (bs : List β) (cs : List γ),
      (∀ a, ∀ b ∈ bs, ∀ c ∈ cs, F a b c = G a b c) →
      zipWith3K F as bs cs = zipWith3K G as bs cs := by
  intro as
  induction as with
  | nil => intro bs cs _; rfl
  | cons a at' ih =>
    intro bs cs h
    cases bs with
    | nil => rfl
    | cons b bt =>
      cases cs with
      | nil => rfl
      | cons c ct =>
        show F a b c :: zipWith3K F at' bt ct = G a b c :: zipWith3K G at' bt ct
        rw [h a b (by simp) c (by simp),
            ih bt ct (fun a0 b0 hb0 c0 hc0 => h a0 b0 (by simp [hb0]) c0 (by simp [hc0]))]

theorem mhaCall_applyPerm {K : Type} [LinearOrderedField K] (ex sq : K → K)
    (W : MHAWeights K) (q x : List (List K)) (mask : Option (List K)) (n : Nat)
    (p : List Nat) (hp : p.Perm (List.range n)) (hx : x.length = n)
    (hm : ∀ m, mask = some m → m.length = n) :
    mhaCall ex sq W q (applyPerm [] p x) (applyPerm [] p x) (mask.map (applyPerm 0 p))
      = mhaCall ex sq W q x x mask := by
  have hlt : ∀ i ∈ p, i < x.length := by
    rw [hx]; exact mem_perm_lt p n hp
  simp only [mhaCall]
  rw [denseNB_applyPerm W.wk p x hlt, denseNB_applyPerm W.wv p x hlt]
  rw [splitHeads_applyPerm W.numHeads W.depth p (denseNB W.wk x)
        (by rw [denseNB_length]; exact hlt),
      splitHeads_applyPerm W.numHeads W.depth p (denseNB W.wv x)
        (by rw [denseNB_length]; exact hlt)]
  rw [zipWith3K_map23]
  apply congrArg (denseNB W.wo)
  apply congrArg combineHeads
  apply zipWith3K_congr23
  intro qi ki hki vi hvi
  have hkilen : ki.length = n := by
    rw [splitHeads_mem_length _ _ _ ki hki, denseNB_length, hx]
  have hvilen : vi.length = n := by
    rw [splitHeads_mem_length _ _ _ vi hvi, denseNB_length, hx]
  exact sdpa_applyPerm ex sq W.depth qi ki vi mask n p hp hkilen hvilen hm

theorem tlCall_applyPerm {K : Type} [LinearOrderedField K] (ex sq : K → K)
    (T : TLWeights K) (s x : List (List K)) (mask : Option (List K)) (n : Nat)
    (p : List Nat) (hp : p.Perm (List.range n)) (hx : x.length = n)
    (hm : ∀ m, mask = some m → m.length = n) :
    tlCall ex sq T s (applyPerm [] p x) (mask.map (applyPerm 0 p))
      = tlCall ex sq T s x mask := by
  simp only [tlCall]
  rw [mhaCall_applyPerm ex sq T.mha s x mask n p hp hx hm]

/-- C5.  The pooling attention treats its input as an unordered set: for
every batch of inputs whose elements have `n` entity rows, every key-axis
padding mask of length `n`, and every permutation of the `n` entity
positions (given as a reordering `p` of `range n`), applying
`PoolingMultiheadAttention.call` to the row-permuted inputs with the
correspondingly permuted mask yields exactly the same output as on the
unpermuted data — for any field `K` and any interpretation of `exp` and
`sqrt`, hence in particular over the reals with the exact softmax and layer
norms. -/
theorem c5_pma_permutation {K : Type} [LinearOrderedField K] (ex sq : K → K)
    (P : PMAWeights K) (xs : List (List (List K))) (mask : Option (List K))
    (n : Nat) (p : List Nat) (hp : p.Perm (List.range n))
    (hx : ∀ x ∈ xs, x.length = n) (hm : ∀ m, mask = some m → m.length = n) :
    pmaCall ex sq P (xs.map (applyPerm [] p)) (mask.map (applyPerm 0 p))
      = pmaCall ex sq P xs mask := by
  simp only [pmaCall, List.map_map]
  apply map_congr_mem
  intro x hx0
  exact tlCall_applyPerm ex sq P.mab P.seed x mask n p hp (hx x hx0) hm

/-- Witness for `c5_pma_permutation`: swapping the two entity rows of a
batch-of-one input (and its mask) leaves the pooled output unchanged. -/
theorem c5_pma_permutation_witness :
    ([1, 0].Perm (List.range 2))
    ∧ (∀ x ∈ [[[(2 : ℚ)], [3]]], x.length = 2)
    ∧ pmaCall (fun x => x) (fun x => x) demoPMA
        ([[[(2 : ℚ)], [3]]].map (applyPerm [] [1, 0]))
        ((some [0, 1] : Option (List ℚ)).map (applyPerm 0 [1, 0]))
      = pmaCall (fun x => x) (fun x => x) demoPMA [[[(2 : ℚ)], [3]]] (some [0, 1]) := by
  have hperm : ([1, 0] : List Nat).Perm (List.range 2) := by decide
  have hx : ∀ x ∈ [[[(2 : ℚ)], [3]]], x.length = 2 := by
    intro x hx0
    simp at hx0
    rw [hx0]
    rfl
  refine ⟨hperm, hx, ?_⟩
  exact c5_pma_permutation (fun x : ℚ => x) (fun x => x) demoPMA [[[(2 : ℚ)], [3]]]
    (some [0, 1]) 2 [1, 0] hperm hx
    (by intro m hm0; cases hm0; rfl)

end DreamerV2
